import Mathlib

set_option linter.unusedSectionVars false

/-
  Verification development for the hashcache repository: a sharded,
  bounded-capacity key-value cache built from per-bucket binary search
  trees with timestamp-based eviction of the oldest entry.

  The tree operations (HashTree) and cache operations (Cache) below are
  shallow embeddings of the corresponding C++ functions in
  src/hashcache.cc.  Wall-clock timestamps are passed explicitly to put;
  the null-pointer dereference in Cache::removeLRU on an empty cache is
  modelled by returning none (a crashed execution).
-/

namespace HashCache

inductive HashTree (K V : Type) where
  | nil : HashTree K V
  | node (key : K) (val : V) (left : HashTree K V) (right : HashTree K V) : HashTree K V
deriving DecidableEq

namespace HashTree

variable {K V : Type} [LinearOrder K]

/-- Embeds HashTree::insertNode: null makes a fresh node; `m_key >= key`
descends left, otherwise right. -/
def insertNode : HashTree K V → K → V → HashTree K V
  | nil, key, val => node key val nil nil
  | node m w l r, key, val =>
      if m ≥ key then node m w (insertNode l key val) r
      else node m w l (insertNode r key val)

/-- Embeds HashTree::getVal: returns the value of the first node on the
search path whose key equals the target (none models returning false). -/
def getVal : HashTree K V → K → Option V
  | nil, _ => none
  | node m w l r, key =>
      if m = key then some w
      else if m > key then getVal l key
      else getVal r key

/-- Embeds HashTree::getSmallestNode: walk left while a left child exists. -/
def getSmallestNode : HashTree K V → Option (K × V)
  | nil => none
  | node m w nil _ => some (m, w)
  | node _ _ (node a b c d) _ => getSmallestNode (node a b c d)

/-- Embeds HashTree::remove: BST deletion; the two-child case copies the
smallest node of the right subtree into the current node and deletes that
key from the right subtree.  The `none` fallback is unreachable because a
non-nil tree always has a smallest node. -/
def remove : HashTree K V → K → HashTree K V
  | nil, _ => nil
  | node m w l r, key =>
      if m > key then node m w (remove l key) r
      else if m < key then node m w l (remove r key)
      else
        match l, r with
        | nil, rr => rr
        | node a b c d, nil => node a b c d
        | node la lb lc ld, node a b c d =>
            match getSmallestNode (node a b c d) with
            | some (sk, sv) => node sk sv (node la lb lc ld) (remove (node a b c d) sk)
            | none => nil

/-- Embeds HashTree::seekWithComparator: fold the whole tree with a binary
combine function over possibly-absent nodes (none models nullptr). -/
def seekWithComparator : HashTree K V → (Option (K × V) → Option (K × V) → Option (K × V)) → Option (K × V)
  | nil, _ => none
  | node m w l r, comp =>
      comp (comp (seekWithComparator l comp) (seekWithComparator r comp)) (some (m, w))

/-- The comparator built inside Cache::removeLRU: an absent candidate loses
to a present one; between two present candidates the strictly lower
timestamp (second component of the stored pair) wins, ties keep the right
argument. -/
def lruComp {K V : Type} : Option (K × V × Int) → Option (K × V × Int) → Option (K × V × Int)
  | none, right => right
  | some l, none => some l
  | some l, some r => if l.2.2 < r.2.2 then some l else some r

/-- Number of nodes in the tree. -/
def treeSize : HashTree K V → Nat
  | nil => 0
  | node _ _ l r => treeSize l + treeSize r + 1

/-- Multiset of (key, value) entries stored in the tree. -/
def entries : HashTree K V → Multiset (K × V)
  | nil => 0
  | node m w l r => (m, w) ::ₘ (entries l + entries r)

/-- Multiset of values stored under a given key. -/
def valsAt : HashTree K V → K → Multiset V
  | nil, _ => 0
  | node m w l r, k => (if m = k then {w} else 0) + valsAt l k + valsAt r k

/-- All keys of the tree satisfy the boolean predicate. -/
def allKeysB (p : K → Bool) : HashTree K V → Bool
  | nil => true
  | node m _ l r => p m && allKeysB p l && allKeysB p r

/-- The search-tree invariant actually maintained by the code: every key in
the left subtree is ≤ the node key, every key in the right subtree is ≥
the node key. -/
def isSearchTree : HashTree K V → Bool
  | nil => true
  | node m _ l r =>
      allKeysB (fun x => decide (x ≤ m)) l && allKeysB (fun x => decide (m ≤ x)) r &&
      isSearchTree l && isSearchTree r

/-- The strict invariant stated in the spec: left subtree keys ≤ node key,
right subtree keys strictly greater. -/
def isBSTStrict : HashTree K V → Bool
  | nil => true
  | node m _ l r =>
      allKeysB (fun x => decide (x ≤ m)) l && allKeysB (fun x => decide (m < x)) r &&
      isBSTStrict l && isBSTStrict r

theorem treeSize_insertNode (t : HashTree K V) (k : K) (v : V) :
    treeSize (insertNode t k v) = treeSize t + 1 := by
  induction t with
  | nil => simp [insertNode, treeSize]
  | node m w l r ihl ihr =>
      by_cases h : m ≥ k
      · simp [insertNode, h, treeSize, ihl]; omega
      · simp [insertNode, h, treeSize, ihr]; omega

theorem entries_insertNode (t : HashTree K V) (k : K) (v : V) :
    entries (insertNode t k v) = (k, v) ::ₘ entries t := by
  induction t with
  | nil => simp [insertNode, entries]
  | node m w l r ihl ihr =>
      by_cases h : m ≥ k
      · simp only [insertNode, if_pos h, entries, ihl]
        rw [Multiset.cons_swap]
        rw [Multiset.cons_add]
      · simp only [insertNode, if_neg h, entries, ihr]
        rw [Multiset.cons_swap]
        rw [Multiset.add_cons]

theorem valsAt_insertNode (t : HashTree K V) (k : K) (v : V) (j : K) :
    valsAt (insertNode t k v) j = if k = j then v ::ₘ valsAt t j else valsAt t j := by
  induction t with
  | nil =>
      by_cases h : k = j <;> simp [insertNode, valsAt, h, Multiset.singleton_add]
  | node m w l r ihl ihr =>
      by_cases h : m ≥ k
      · simp only [insertNode, if_pos h, valsAt, ihl]
        by_cases hkj : k = j
        · simp only [if_pos hkj]
          rw [Multiset.add_cons, Multiset.cons_add]
        · simp [hkj]
      · simp only [insertNode, if_neg h, valsAt, ihr]
        by_cases hkj : k = j
        · simp only [if_pos hkj]
          rw [Multiset.add_cons]
        · simp [hkj]

theorem allKeysB_mono {p q : K → Bool} (hpq : ∀ x, p x = true → q x = true)
    (t : HashTree K V) (h : allKeysB p t = true) : allKeysB q t = true := by
  induction t with
  | nil => simp [allKeysB]
  | node m w l r ihl ihr =>
      simp only [allKeysB, Bool.and_eq_true] at h ⊢
      exact ⟨⟨hpq m h.1.1, ihl h.1.2⟩, ihr h.2⟩

theorem allKeysB_insertNode {p : K → Bool} (t : HashTree K V) (k : K) (v : V)
    (h : allKeysB p t = true) (hk : p k = true) :
    allKeysB p (insertNode t k v) = true := by
  induction t with
  | nil => simp [insertNode, allKeysB, hk]
  | node m w l r ihl ihr =>
      simp only [allKeysB, Bool.and_eq_true] at h
      by_cases hc : m ≥ k
      · simp only [insertNode, if_pos hc, allKeysB, Bool.and_eq_true]
        exact ⟨⟨h.1.1, ihl h.1.2⟩, h.2⟩
      · simp only [insertNode, if_neg hc, allKeysB, Bool.and_eq_true]
        exact ⟨⟨h.1.1, h.1.2⟩, ihr h.2⟩

theorem allKeysB_entries {p : K → Bool} (t : HashTree K V) (h : allKeysB p t = true) :
    ∀ e ∈ entries t, p e.1 = true := by
  induction t with
  | nil => simp [entries]
  | node m w l r ihl ihr =>
      simp only [allKeysB, Bool.and_eq_true] at h
      intro e he
      simp only [entries, Multiset.mem_cons, Multiset.mem_add] at he
      rcases he with he | he | he
      · subst he; exact h.1.1
      · exact ihl h.1.2 e he
      · exact ihr h.2 e he

theorem mem_entries_node (m : K) (w : V) (l r : HashTree K V) (x : K × V) :
    x ∈ entries (node m w l r) ↔ x = (m, w) ∨ x ∈ entries l ∨ x ∈ entries r := by
  rw [show entries (node m w l r) = (m, w) ::ₘ (entries l + entries r) from rfl]
  rw [Multiset.mem_cons, Multiset.mem_add]

theorem entries_allKeysB {p : K → Bool} (t : HashTree K V)
    (h : ∀ e ∈ entries t, p e.1 = true) : allKeysB p t = true := by
  induction t with
  | nil => simp [allKeysB]
  | node m w l r ihl ihr =>
      simp only [allKeysB, Bool.and_eq_true]
      refine ⟨⟨h (m, w) ((mem_entries_node ..).mpr (Or.inl rfl)),
        ihl fun e he => h e ((mem_entries_node ..).mpr (Or.inr (Or.inl he)))⟩,
        ihr fun e he => h e ((mem_entries_node ..).mpr (Or.inr (Or.inr he)))⟩

theorem valsAt_eq_zero_of_allKeysB {p : K → Bool} (t : HashTree K V) (k : K)
    (h : allKeysB p t = true) (hk : p k = false) : valsAt t k = 0 := by
  induction t with
  | nil => simp [valsAt]
  | node m w l r ihl ihr =>
      simp only [allKeysB, Bool.and_eq_true] at h
      have hmk : ¬ m = k := by
        intro he; rw [he, hk] at h; exact Bool.false_ne_true h.1.1
      simp [valsAt, hmk, ihl h.1.2, ihr h.2]

theorem mem_valsAt_of_mem_entries (t : HashTree K V) (k : K) (v : V)
    (h : (k, v) ∈ entries t) : v ∈ valsAt t k := by
  induction t with
  | nil => simp [entries] at h
  | node m w l r ihl ihr =>
      simp only [entries, Multiset.mem_cons, Multiset.mem_add] at h
      simp only [valsAt, Multiset.mem_add]
      rcases h with h | h | h
      · obtain ⟨h1, h2⟩ := Prod.mk.injEq .. ▸ h
        left; left
        simp [h1.symm, h2]
      · left; right; exact ihl h
      · right; exact ihr h

theorem getSmallestNode_ne_none (t : HashTree K V) (ht : t ≠ nil) :
    ∃ e, getSmallestNode t = some e := by
  induction t with
  | nil => exact absurd rfl ht
  | node m w l r ihl ihr =>
      cases l with
      | nil => exact ⟨(m, w), rfl⟩
      | node a b c d =>
          obtain ⟨e, he⟩ := ihl (by simp)
          exact ⟨e, by simpa [getSmallestNode] using he⟩

theorem getSmallestNode_mem (t : HashTree K V) (e : K × V)
    (h : getSmallestNode t = some e) : e ∈ entries t := by
  induction t with
  | nil => simp [getSmallestNode] at h
  | node m w l r ihl ihr =>
      cases l with
      | nil =>
          simp only [getSmallestNode, Option.some.injEq] at h
          simp [entries, h.symm]
      | node a b c d =>
          simp only [getSmallestNode] at h
          exact (mem_entries_node ..).mpr (Or.inr (Or.inl (ihl h)))

theorem getSmallestNode_le (t : HashTree K V) (hs : isSearchTree t = true)
    (e : K × V) (h : getSmallestNode t = some e) :
    ∀ x ∈ entries t, e.1 ≤ x.1 := by
  induction t with
  | nil => simp [getSmallestNode] at h
  | node m w l r ihl ihr =>
      simp only [isSearchTree, Bool.and_eq_true] at hs
      obtain ⟨⟨⟨hle, hge⟩, hsl⟩, hsr⟩ := hs
      cases l with
      | nil =>
          simp only [getSmallestNode, Option.some.injEq] at h
          subst h
          intro x hx
          rw [mem_entries_node] at hx
          rcases hx with hx | hx | hx
          · subst hx; exact le_refl _
          · simp [entries] at hx
          · have := allKeysB_entries r hge x hx
            simpa using this
      | node a b c d =>
          simp only [getSmallestNode] at h
          have hmem := getSmallestNode_mem _ _ h
          have hkm : e.1 ≤ m := by
            have := allKeysB_entries _ hle e hmem
            simpa using this
          intro x hx
          rw [mem_entries_node] at hx
          rcases hx with hx | hx | hx
          · subst hx; exact hkm
          · exact ihl hsl h x hx
          · have hmx : m ≤ x.1 := by
              have := allKeysB_entries r hge x hx
              simpa using this
            exact le_trans hkm hmx

theorem remove_lt (m : K) (w : V) (l r : HashTree K V) (j : K) (h : m > j) :
    remove (node m w l r) j = node m w (remove l j) r := by
  rw [remove.eq_def]; simp [h]

theorem remove_gt (m : K) (w : V) (l r : HashTree K V) (j : K) (h : m < j) :
    remove (node m w l r) j = node m w l (remove r j) := by
  have h1 : ¬ m > j := lt_asymm h
  rw [remove.eq_def]; simp [h, h1]

theorem remove_nil_left (m : K) (w : V) (r : HashTree K V) (j : K)
    (h1 : ¬ m > j) (h2 : ¬ m < j) : remove (node m w nil r) j = r := by
  rw [remove.eq_def]; simp [h1, h2]

theorem remove_nil_right (m : K) (w : V) (la : K) (lb : V) (lc ld : HashTree K V) (j : K)
    (h1 : ¬ m > j) (h2 : ¬ m < j) :
    remove (node m w (node la lb lc ld) nil) j = node la lb lc ld := by
  rw [remove.eq_def]; simp [h1, h2]

theorem remove_two (m : K) (w : V) (la : K) (lb : V) (lc ld : HashTree K V)
    (a : K) (b : V) (c d : HashTree K V) (j sk : K) (sv : V)
    (h1 : ¬ m > j) (h2 : ¬ m < j)
    (hsm : getSmallestNode (node a b c d) = some (sk, sv)) :
    remove (node m w (node la lb lc ld) (node a b c d)) j =
      node sk sv (node la lb lc ld) (remove (node a b c d) sk) := by
  rw [remove.eq_def]; simp [h1, h2, hsm]

theorem isSearchTree_insertNode (t : HashTree K V) (hs : isSearchTree t = true)
    (k : K) (v : V) : isSearchTree (insertNode t k v) = true := by
  induction t with
  | nil => simp [insertNode, isSearchTree, allKeysB]
  | node m w l r ihl ihr =>
      simp only [isSearchTree, Bool.and_eq_true] at hs
      obtain ⟨⟨⟨hle, hge⟩, hsl⟩, hsr⟩ := hs
      by_cases hc : m ≥ k
      · simp only [insertNode, if_pos hc, isSearchTree, Bool.and_eq_true]
        exact ⟨⟨⟨allKeysB_insertNode l k v hle (by simpa using hc), hge⟩, ihl hsl⟩, hsr⟩
      · simp only [insertNode, if_neg hc, isSearchTree, Bool.and_eq_true]
        have hmk : m ≤ k := le_of_lt (lt_of_not_ge hc)
        exact ⟨⟨⟨hle, allKeysB_insertNode r k v hge (by simpa using hmk)⟩, hsl⟩, ihr hsr⟩

theorem isBSTStrict_insertNode (t : HashTree K V) (hs : isBSTStrict t = true)
    (k : K) (v : V) : isBSTStrict (insertNode t k v) = true := by
  induction t with
  | nil => simp [insertNode, isBSTStrict, allKeysB]
  | node m w l r ihl ihr =>
      simp only [isBSTStrict, Bool.and_eq_true] at hs
      obtain ⟨⟨⟨hle, hge⟩, hsl⟩, hsr⟩ := hs
      by_cases hc : m ≥ k
      · simp only [insertNode, if_pos hc, isBSTStrict, Bool.and_eq_true]
        exact ⟨⟨⟨allKeysB_insertNode l k v hle (by simpa using hc), hge⟩, ihl hsl⟩, hsr⟩
      · simp only [insertNode, if_neg hc, isBSTStrict, Bool.and_eq_true]
        have hmk : m < k := lt_of_not_ge hc
        exact ⟨⟨⟨hle, allKeysB_insertNode r k v hge (by simpa using hmk)⟩, hsl⟩, ihr hsr⟩

theorem isBSTStrict_isSearchTree (t : HashTree K V) (hs : isBSTStrict t = true) :
    isSearchTree t = true := by
  induction t with
  | nil => simp [isSearchTree]
  | node m w l r ihl ihr =>
      simp only [isBSTStrict, Bool.and_eq_true] at hs
      obtain ⟨⟨⟨hle, hge⟩, hsl⟩, hsr⟩ := hs
      simp only [isSearchTree, Bool.and_eq_true]
      refine ⟨⟨⟨hle, allKeysB_mono (fun x hx => ?_) r hge⟩, ihl hsl⟩, ihr hsr⟩
      simp only [decide_eq_true_eq] at hx ⊢
      exact le_of_lt hx

theorem allKeysB_node {p : K → Bool} (m : K) (w : V) (l r : HashTree K V) :
    allKeysB p (node m w l r) = true ↔
      p m = true ∧ allKeysB p l = true ∧ allKeysB p r = true := by
  rw [show allKeysB p (node m w l r) = (p m && allKeysB p l && allKeysB p r) from rfl]
  simp [and_assoc]

theorem isSearchTree_node (m : K) (w : V) (l r : HashTree K V) :
    isSearchTree (node m w l r) = true ↔
      allKeysB (fun x => decide (x ≤ m)) l = true ∧
      allKeysB (fun x => decide (m ≤ x)) r = true ∧
      isSearchTree l = true ∧ isSearchTree r = true := by
  rw [show isSearchTree (node m w l r) =
      (allKeysB (fun x => decide (x ≤ m)) l && allKeysB (fun x => decide (m ≤ x)) r &&
       isSearchTree l && isSearchTree r) from rfl]
  simp [and_assoc]

theorem allKeysB_remove {p : K → Bool} (t : HashTree K V) (h : allKeysB p t = true) :
    ∀ j, allKeysB p (remove t j) = true := by
  induction t with
  | nil => intro j; simpa [remove] using h
  | node m w l r ihl ihr =>
      intro j
      rw [allKeysB_node] at h
      obtain ⟨hm, hl, hr⟩ := h
      rcases lt_trichotomy m j with hmj | hmj | hmj
      · rw [remove_gt m w l r j hmj, allKeysB_node]
        exact ⟨hm, hl, ihr hr j⟩
      · have h1 : ¬ m > j := by simp [hmj]
        have h2 : ¬ m < j := by simp [hmj]
        cases l with
        | nil => rw [remove_nil_left m w r j h1 h2]; exact hr
        | node la lb lc ld =>
            cases r with
            | nil =>
                rw [remove_nil_right m w la lb lc ld j h1 h2]; exact hl
            | node a b c d =>
                obtain ⟨⟨sk, sv⟩, hsm⟩ := getSmallestNode_ne_none (node a b c d) (by simp)
                rw [remove_two m w la lb lc ld a b c d j sk sv h1 h2 hsm, allKeysB_node]
                have hpsk : p sk = true := allKeysB_entries _ hr _ (getSmallestNode_mem _ _ hsm)
                exact ⟨hpsk, hl, ihr hr sk⟩
      · rw [remove_lt m w l r j hmj, allKeysB_node]
        exact ⟨hm, ihl hl j, hr⟩

theorem isSearchTree_remove (t : HashTree K V) (hs : isSearchTree t = true) :
    ∀ j, isSearchTree (remove t j) = true := by
  induction t with
  | nil => intro j; simpa [remove] using hs
  | node m w l r ihl ihr =>
      intro j
      rw [isSearchTree_node] at hs
      obtain ⟨hle, hge, hsl, hsr⟩ := hs
      rcases lt_trichotomy m j with hmj | hmj | hmj
      · rw [remove_gt m w l r j hmj, isSearchTree_node]
        exact ⟨hle, allKeysB_remove r hge j, hsl, ihr hsr j⟩
      · have h1 : ¬ m > j := by simp [hmj]
        have h2 : ¬ m < j := by simp [hmj]
        cases l with
        | nil => rw [remove_nil_left m w r j h1 h2]; exact hsr
        | node la lb lc ld =>
            cases r with
            | nil =>
                rw [remove_nil_right m w la lb lc ld j h1 h2]; exact hsl
            | node a b c d =>
                obtain ⟨⟨sk, sv⟩, hsm⟩ := getSmallestNode_ne_none (node a b c d) (by simp)
                rw [remove_two m w la lb lc ld a b c d j sk sv h1 h2 hsm, isSearchTree_node]
                have hmsk : m ≤ sk := by
                  have := allKeysB_entries _ hge _ (getSmallestNode_mem _ _ hsm)
                  simpa using this
                refine ⟨?_, ?_, hsl, ihr hsr sk⟩
                · exact allKeysB_mono (fun x hx => by
                    simp only [decide_eq_true_eq] at hx ⊢
                    exact le_trans hx hmsk) _ hle
                · have hallge : allKeysB (fun x => decide (sk ≤ x)) (node a b c d) = true := by
                    refine entries_allKeysB _ fun e he => ?_
                    simpa using getSmallestNode_le (node a b c d) hsr _ hsm e he
                  exact allKeysB_remove _ hallge sk
      · rw [remove_lt m w l r j hmj, isSearchTree_node]
        exact ⟨allKeysB_remove l hle j, hge, ihl hsl j, hsr⟩

theorem remove_eq_of_valsAt_zero (t : HashTree K V) :
    ∀ j, valsAt t j = 0 → remove t j = t := by
  induction t with
  | nil => intro j _; rfl
  | node m w l r ihl ihr =>
      intro j h0
      have hcard := congrArg Multiset.card h0
      simp only [valsAt, Multiset.card_add, Multiset.card_zero] at hcard
      have hmj : ¬ m = j := by
        intro he
        rw [if_pos he] at hcard
        simp at hcard
      rw [if_neg hmj] at hcard
      simp only [Multiset.card_zero] at hcard
      have hl0 : valsAt l j = 0 := Multiset.card_eq_zero.mp (by omega)
      have hr0 : valsAt r j = 0 := Multiset.card_eq_zero.mp (by omega)
      rcases lt_trichotomy m j with hmj' | hmj' | hmj'
      · rw [remove_gt m w l r j hmj', ihr j hr0]
      · exact absurd hmj' hmj
      · rw [remove_lt m w l r j hmj', ihl j hl0]

theorem valsAt_node (m : K) (w : V) (l r : HashTree K V) (k : K) :
    valsAt (node m w l r) k = (if m = k then {w} else 0) + valsAt l k + valsAt r k := rfl

/-- How deletion changes the multiset of values stored under a key `k`
that occurs at most once: removing `j = k` erases it, removing any other
key leaves it unchanged.  (The at-most-once hypothesis is needed: with
duplicate keys the two-child case of the reference can duplicate the
in-order successor's value.) -/
theorem valsAt_remove (t : HashTree K V) :
    isSearchTree t = true → ∀ k, Multiset.card (valsAt t k) ≤ 1 →
      ∀ j, valsAt (remove t j) k = if j = k then 0 else valsAt t k := by
  induction t with
  | nil => intro _ k _ j; simp [remove, valsAt]
  | node m w l r ihl ihr =>
      intro hs k hc j
      rw [isSearchTree_node] at hs
      obtain ⟨hle, hge, hsl, hsr⟩ := hs
      rw [valsAt_node, Multiset.card_add, Multiset.card_add] at hc
      have hcl : Multiset.card (valsAt l k) ≤ 1 := by omega
      have hcr : Multiset.card (valsAt r k) ≤ 1 := by omega
      rcases lt_trichotomy m j with hmj | hmj | hmj
      · -- m < j: deletion recurses into the right subtree
        rw [remove_gt m w l r j hmj, valsAt_node, ihr hsr k hcr j]
        by_cases hjk : j = k
        · have hmk : ¬ m = k := by rw [← hjk]; exact ne_of_lt hmj
          have hl0 : valsAt l k = 0 := by
            refine valsAt_eq_zero_of_allKeysB l k hle ?_
            simp only [decide_eq_false_iff_not, not_le]
            rw [← hjk]; exact hmj
          simp [hjk, hmk, hl0]
        · simp [hjk, valsAt_node]
      · -- m = j: this node is deleted
        have h1 : ¬ m > j := by simp [hmj]
        have h2 : ¬ m < j := by simp [hmj]
        cases l with
        | nil =>
            rw [remove_nil_left m w r j h1 h2]
            by_cases hjk : j = k
            · have hmk : m = k := hmj.trans hjk
              rw [if_pos hmk, Multiset.card_singleton] at hc
              have hr0 : valsAt r k = 0 := Multiset.card_eq_zero.mp (by omega)
              simp [hjk, hr0]
            · have hmk : ¬ m = k := fun he => hjk (hmj.symm.trans he)
              simp [hjk, valsAt_node, hmk, valsAt]
        | node la lb lc ld =>
            cases r with
            | nil =>
                rw [remove_nil_right m w la lb lc ld j h1 h2]
                by_cases hjk : j = k
                · have hmk : m = k := hmj.trans hjk
                  rw [if_pos hmk, Multiset.card_singleton] at hc
                  have hl0 : valsAt (node la lb lc ld) k = 0 :=
                    Multiset.card_eq_zero.mp (by omega)
                  simp [hjk, hl0]
                · have hmk : ¬ m = k := fun he => hjk (hmj.symm.trans he)
                  simp [hjk, valsAt_node, hmk, valsAt]
            | node a b c d =>
                obtain ⟨⟨sk, sv⟩, hsm⟩ := getSmallestNode_ne_none (node a b c d) (by simp)
                rw [remove_two m w la lb lc ld a b c d j sk sv h1 h2 hsm, valsAt_node]
                have hskr := getSmallestNode_mem _ _ hsm
                have ihrr := ihr hsr k hcr
                by_cases hskk : sk = k
                · have hsv : sv ∈ valsAt (node a b c d) k := by
                    refine mem_valsAt_of_mem_entries _ _ _ ?_
                    rw [← hskk]; exact hskr
                  have hcrpos : 0 < Multiset.card (valsAt (node a b c d) k) :=
                    Multiset.card_pos.mpr (fun h0 => Multiset.not_mem_zero sv (h0 ▸ hsv))
                  by_cases hjk : j = k
                  · exfalso
                    have hmk : m = k := hmj.trans hjk
                    rw [if_pos hmk, Multiset.card_singleton] at hc
                    omega
                  · have hmk : ¬ m = k := fun he => hjk (hmj.symm.trans he)
                    rw [if_neg hmk, Multiset.card_zero] at hc
                    have hcl0 : valsAt (node la lb lc ld) k = 0 :=
                      Multiset.card_eq_zero.mp (by omega)
                    have hcr1 : Multiset.card (valsAt (node a b c d) k) = 1 := by omega
                    have hr_eq : valsAt (node a b c d) k = {sv} := by
                      obtain ⟨x, hx⟩ := Multiset.card_eq_one.mp hcr1
                      rw [hx] at hsv
                      rw [hx, Multiset.mem_singleton.mp hsv]
                    rw [if_pos hskk, ihrr sk, if_pos hskk, hcl0, if_neg hjk,
                      valsAt_node, if_neg hmk, hcl0, hr_eq]
                    simp
                · rw [if_neg hskk, ihrr sk, if_neg hskk]
                  by_cases hjk : j = k
                  · have hmk : m = k := hmj.trans hjk
                    rw [if_pos hmk, Multiset.card_singleton] at hc
                    have hcl0 : valsAt (node la lb lc ld) k = 0 :=
                      Multiset.card_eq_zero.mp (by omega)
                    have hcr0 : valsAt (node a b c d) k = 0 :=
                      Multiset.card_eq_zero.mp (by omega)
                    rw [if_pos hjk, hcl0, hcr0]
                    simp
                  · have hmk : ¬ m = k := fun he => hjk (hmj.symm.trans he)
                    rw [if_neg hjk]
                    conv_rhs => rw [valsAt_node, if_neg hmk]
      · -- j < m: deletion recurses into the left subtree
        rw [remove_lt m w l r j hmj, valsAt_node, ihl hsl k hcl j]
        by_cases hjk : j = k
        · have hmk : ¬ m = k := by rw [← hjk]; exact ne_of_gt hmj
          have hr0 : valsAt r k = 0 := by
            refine valsAt_eq_zero_of_allKeysB r k hge ?_
            simp only [decide_eq_false_iff_not, not_le]
            rw [← hjk]; exact hmj
          simp [hjk, hmk, hr0]
        · simp [hjk, valsAt_node]

theorem getVal_eq_none (t : HashTree K V) (k : K) (h0 : valsAt t k = 0) :
    getVal t k = none := by
  induction t with
  | nil => rfl
  | node m w l r ihl ihr =>
      have hcard := congrArg Multiset.card h0
      simp only [valsAt, Multiset.card_add, Multiset.card_zero] at hcard
      have hmk : ¬ m = k := by
        intro he
        rw [if_pos he] at hcard
        simp at hcard
      rw [if_neg hmk] at hcard
      simp only [Multiset.card_zero] at hcard
      have hl0 : valsAt l k = 0 := Multiset.card_eq_zero.mp (by omega)
      have hr0 : valsAt r k = 0 := Multiset.card_eq_zero.mp (by omega)
      by_cases hgt : m > k
      · simp [getVal, hmk, hgt, ihl hl0]
      · simp [getVal, hmk, hgt, ihr hr0]

theorem getVal_unique (t : HashTree K V) (hs : isSearchTree t = true) (k : K) (v : V)
    (hv : valsAt t k = {v}) : getVal t k = some v := by
  induction t with
  | nil => simp [valsAt] at hv
  | node m w l r ihl ihr =>
      simp only [isSearchTree, Bool.and_eq_true] at hs
      obtain ⟨⟨⟨hle, hge⟩, hsl⟩, hsr⟩ := hs
      by_cases hmk : m = k
      · have hwv : w = v := by
          have hw : w ∈ valsAt (node m w l r) k := by
            simp only [valsAt, if_pos hmk]
            exact Multiset.mem_add.mpr (Or.inl (Multiset.mem_add.mpr
              (Or.inl (Multiset.mem_singleton_self w))))
          rw [hv] at hw
          exact Multiset.mem_singleton.mp hw
        simp [getVal, hmk, hwv]
      · rcases lt_or_gt_of_ne hmk with hlt | hgt
        · -- m < k: the key can only be in the right subtree
          have hl0 : valsAt l k = 0 := by
            refine valsAt_eq_zero_of_allKeysB l k hle ?_
            simp only [decide_eq_false_iff_not, not_le]
            exact hlt
          have hr1 : valsAt r k = {v} := by
            have : valsAt (node m w l r) k = valsAt r k := by
              simp [valsAt, hmk, hl0]
            rw [this] at hv; exact hv
          have hngt : ¬ m > k := by simp [le_of_lt hlt]
          simp [getVal, hmk, hngt, ihr hsr hr1]
        · -- m > k: the key can only be in the left subtree
          have hr0 : valsAt r k = 0 := by
            refine valsAt_eq_zero_of_allKeysB r k hge ?_
            simp only [decide_eq_false_iff_not, not_le]
            exact hgt
          have hl1 : valsAt l k = {v} := by
            have : valsAt (node m w l r) k = valsAt l k := by
              simp [valsAt, hmk, hr0]
            rw [this] at hv; exact hv
          simp [getVal, hmk, hgt, ihl hsl hl1]

theorem seek_node {K V : Type} [LinearOrder K] (m : K) (w : V × Int)
    (l r : HashTree K (V × Int)) :
    seekWithComparator (node m w l r) lruComp =
      lruComp (lruComp (seekWithComparator l lruComp) (seekWithComparator r lruComp))
        (some (m, w)) := rfl

theorem lruComp_spec {K V : Type} (a b : Option (K × V × Int)) (e : K × V × Int)
    (h : lruComp a b = some e) :
    (a = some e ∨ b = some e) ∧
    (∀ x, a = some x → e.2.2 ≤ x.2.2) ∧ (∀ y, b = some y → e.2.2 ≤ y.2.2) := by
  cases a with
  | none =>
      cases b with
      | none => simp [lruComp] at h
      | some y =>
          rw [show lruComp none (some y) = some y from rfl] at h
          obtain rfl : y = e := by simpa using h
          exact ⟨Or.inr rfl, fun x hx => by simp at hx, fun x hx => by
            obtain rfl : y = x := by simpa using hx
            exact le_refl _⟩
  | some x =>
      cases b with
      | none =>
          rw [show lruComp (some x) none = some x from rfl] at h
          obtain rfl : x = e := by simpa using h
          exact ⟨Or.inl rfl, fun z hz => by
            obtain rfl : x = z := by simpa using hz
            exact le_refl _, fun z hz => by simp at hz⟩
      | some y =>
          rw [show lruComp (some x) (some y) =
            (if x.2.2 < y.2.2 then some x else some y) from rfl] at h
          by_cases hxy : x.2.2 < y.2.2
          · rw [if_pos hxy] at h
            obtain rfl : x = e := by simpa using h
            refine ⟨Or.inl rfl, fun z hz => ?_, fun z hz => ?_⟩
            · obtain rfl : x = z := by simpa using hz
              exact le_refl _
            · obtain rfl : y = z := by simpa using hz
              exact le_of_lt hxy
          · rw [if_neg hxy] at h
            obtain rfl : y = e := by simpa using h
            refine ⟨Or.inr rfl, fun z hz => ?_, fun z hz => ?_⟩
            · obtain rfl : x = z := by simpa using hz
              exact le_of_not_lt hxy
            · obtain rfl : y = z := by simpa using hz
              exact le_refl _

theorem lruComp_isSome_left {K V : Type} (x : K × V × Int) (b : Option (K × V × Int)) :
    ∃ c, lruComp (some x) b = some c := by
  cases b with
  | none => exact ⟨x, rfl⟩
  | some y =>
      rw [show lruComp (some x) (some y) =
        (if x.2.2 < y.2.2 then some x else some y) from rfl]
      by_cases hxy : x.2.2 < y.2.2
      · exact ⟨x, if_pos hxy⟩
      · exact ⟨y, if_neg hxy⟩

theorem seek_eq_none_iff (t : HashTree K (V × Int)) :
    seekWithComparator t lruComp = none ↔ t = nil := by
  constructor
  · intro h
    cases t with
    | nil => rfl
    | node m w l r =>
        exfalso
        rw [seek_node] at h
        cases hC : lruComp (seekWithComparator l lruComp) (seekWithComparator r lruComp) with
        | none => rw [hC] at h; simp [lruComp] at h
        | some y =>
            rw [hC] at h
            obtain ⟨c, hc⟩ := lruComp_isSome_left y (some (m, w))
            rw [hc] at h
            exact Option.noConfusion h
  · intro h; subst h; rfl

/-- seekWithComparator with the removeLRU comparator returns an entry of
the tree with a minimal timestamp (the traversal visits every node). -/
theorem seek_lruComp_min (t : HashTree K (V × Int)) :
    ∀ e, seekWithComparator t lruComp = some e →
      e ∈ entries t ∧ ∀ x ∈ entries t, e.2.2 ≤ x.2.2 := by
  induction t with
  | nil => intro e h; exact Option.noConfusion h
  | node m w l r ihl ihr =>
      intro e h
      rw [seek_node] at h
      obtain ⟨houter, hCmin, hwmin⟩ := lruComp_spec _ _ _ h
      have hew : e.2.2 ≤ w.2 := hwmin (m, w) rfl
      -- bound on everything in the left subtree
      have hlbound : ∀ x ∈ entries l, e.2.2 ≤ x.2.2 := by
        intro x hx
        cases ha : seekWithComparator l lruComp with
        | none =>
            rw [(seek_eq_none_iff l).mp ha] at hx
            simp [entries] at hx
        | some ea =>
            obtain ⟨c, hc⟩ := lruComp_isSome_left ea (seekWithComparator r lruComp)
            rw [← ha] at hc
            have hec : e.2.2 ≤ c.2.2 := hCmin c hc
            have hcea : c.2.2 ≤ ea.2.2 := (lruComp_spec _ _ _ hc).2.1 ea ha
            have := (ihl ea ha).2 x hx
            exact le_trans (le_trans hec hcea) this
      -- bound on everything in the right subtree
      have hrbound : ∀ x ∈ entries r, e.2.2 ≤ x.2.2 := by
        intro x hx
        cases hb : seekWithComparator r lruComp with
        | none =>
            rw [(seek_eq_none_iff r).mp hb] at hx
            simp [entries] at hx
        | some eb =>
            cases ha : seekWithComparator l lruComp with
            | none =>
                have hc : lruComp (seekWithComparator l lruComp)
                    (seekWithComparator r lruComp) = some eb := by
                  rw [ha, hb]; rfl
                have hec : e.2.2 ≤ eb.2.2 := hCmin eb hc
                exact le_trans hec ((ihr eb hb).2 x hx)
            | some ea =>
                obtain ⟨c, hc⟩ := lruComp_isSome_left ea (seekWithComparator r lruComp)
                rw [← ha] at hc
                have hec : e.2.2 ≤ c.2.2 := hCmin c hc
                have hceb : c.2.2 ≤ eb.2.2 := (lruComp_spec _ _ _ hc).2.2 eb hb
                exact le_trans (le_trans hec hceb) ((ihr eb hb).2 x hx)
      constructor
      · -- membership of the winner
        rcases houter with hC | hroot
        · obtain ⟨hin, _, _⟩ := lruComp_spec _ _ _ hC
          rcases hin with ha | hb
          · exact (mem_entries_node ..).mpr (Or.inr (Or.inl (ihl e ha).1))
          · exact (mem_entries_node ..).mpr (Or.inr (Or.inr (ihr e hb).1))
        · have : e = (m, w) := by simpa using hroot.symm
          exact (mem_entries_node ..).mpr (Or.inl this)
      · intro x hx
        rw [mem_entries_node] at hx
        rcases hx with hx | hx | hx
        · subst hx; exact hew
        · exact hlbound x hx
        · exact hrbound x hx

end HashTree

/-- Functional update of the i-th element of a list (used to store the new
root of a bucket back into the bucket array). -/
def setAt {α : Type} : List α → Nat → α → List α
  | [], _, _ => []
  | _ :: xs, 0, a => a :: xs
  | x :: xs, Nat.succ n, a => x :: setAt xs n a

theorem length_setAt {α : Type} (l : List α) (i : Nat) (a : α) :
    (setAt l i a).length = l.length := by
  induction l generalizing i with
  | nil => cases i <;> rfl
  | cons x xs ih =>
      cases i with
      | zero => rfl
      | succ n => simp [setAt, ih]

theorem getD_setAt_self {α : Type} (l : List α) (i : Nat) (a d : α) (h : i < l.length) :
    (setAt l i a).getD i d = a := by
  induction l generalizing i with
  | nil => simp at h
  | cons x xs ih =>
      cases i with
      | zero => rfl
      | succ n =>
          simp only [setAt, List.getD_cons_succ]
          exact ih n (by simpa using h)

theorem getD_setAt_ne {α : Type} (l : List α) (i j : Nat) (a d : α) (h : j ≠ i) :
    (setAt l i a).getD j d = l.getD j d := by
  induction l generalizing i j with
  | nil => cases i <;> rfl
  | cons x xs ih =>
      cases i with
      | zero =>
          cases j with
          | zero => exact absurd rfl h
          | succ n => rfl
      | succ n =>
          cases j with
          | zero => rfl
          | succ p =>
              simp only [setAt, List.getD_cons_succ]
              exact ih n p (fun hh => h (by rw [hh]))

theorem mem_setAt {α : Type} (l : List α) (i : Nat) (a b : α) (h : b ∈ setAt l i a) :
    b ∈ l ∨ b = a := by
  induction l generalizing i with
  | nil => simp [setAt] at h
  | cons x xs ih =>
      cases i with
      | zero =>
          simp only [setAt, List.mem_cons] at h
          rcases h with h | h
          · right; exact h
          · left; exact List.mem_cons_of_mem _ h
      | succ n =>
          simp only [setAt, List.mem_cons] at h
          rcases h with h | h
          · left; exact h ▸ List.mem_cons_self x xs
          · rcases ih n h with h1 | h1
            · left; exact List.mem_cons_of_mem _ h1
            · right; exact h1

theorem map_sum_setAt {α β : Type} [AddCommMonoid β] (f : α → β) (l : List α) (i : Nat)
    (a d : α) (h : i < l.length) :
    ((setAt l i a).map f).sum + f (l.getD i d) = (l.map f).sum + f a := by
  induction l generalizing i with
  | nil => simp at h
  | cons x xs ih =>
      cases i with
      | zero =>
          simp only [setAt, List.map_cons, List.sum_cons, List.getD_cons_zero]
          abel
      | succ n =>
          simp only [setAt, List.map_cons, List.sum_cons, List.getD_cons_succ]
          rw [add_assoc, ih n (by simpa using h), ← add_assoc]

/--
Embeds the Cache class of src/hashcache.cc.  NUM_BUCKETS and CACHE_SIZE are
the compile-time constants of the reference (the spec exposes them as
configuration, so they are fields here); `hashFunc` models std::hash;
`buckets` is the bucket array; `cacheSize` is the approximate size counter
(atomic in the source, a plain integer in this sequential model).
-/
structure Cache (K V : Type) where
  capacity : Int
  hashFunc : K → Nat
  buckets : List (HashTree K (V × Int))
  cacheSize : Int

namespace Cache

variable {K V : Type} [LinearOrder K]

/-- Embeds Cache::hashFunc: hash of the key modulo the number of buckets. -/
def bucketIdx (c : Cache K V) (k : K) : Nat := c.hashFunc k % c.buckets.length

/-- The bucket tree a key is routed to. -/
def bucketOf (c : Cache K V) (k : K) : HashTree K (V × Int) :=
  c.buckets.getD (c.bucketIdx k) HashTree.nil

/-- Embeds Cache::get, including the out-parameter behaviour: the
default-constructed value wrapper is copied into the out-parameter whether
or not the lookup succeeded, so a miss yields (false, default). -/
def get [Inhabited V] (c : Cache K V) (k : K) : Bool × V :=
  let res := HashTree.getVal (c.bucketOf k) k
  (res.isSome, (res.getD (default, 0)).1)

/-- The bucket-insertion step of Cache::put: insert the timestamped pair
into the key's bucket and store the new root. -/
def insertTS (c : Cache K V) (k : K) (v : V) (ts : Int) : Cache K V :=
  { c with buckets :=
      setAt c.buckets (c.bucketIdx k) (HashTree.insertNode (c.bucketOf k) k (v, ts)) }

/-- Embeds Cache::remove: always removes from the key's bucket, always
decrements the size counter and always returns true, whether or not the
key was present. -/
def remove (c : Cache K V) (k : K) : Bool × Cache K V :=
  (true,
   { c with
     buckets := setAt c.buckets (c.bucketIdx k) (HashTree.remove (c.bucketOf k) k),
     cacheSize := c.cacheSize - 1 })

/-- One iteration of the scan loop in Cache::removeLRU: ask the bucket for
its seekWithComparator candidate; a null candidate keeps the running
oldest, a null running oldest is replaced, otherwise the strictly older
timestamp wins. -/
def scanStep : Option (K × V × Int) → HashTree K (V × Int) → Option (K × V × Int) :=
  fun oldest b =>
    match HashTree.seekWithComparator b HashTree.lruComp with
    | none => oldest
    | some cur =>
      match oldest with
      | none => some cur
      | some o => if cur.2.2 < o.2.2 then some cur else some o

def evictCandidate (c : Cache K V) : Option (K × V × Int) :=
  c.buckets.foldl scanStep none

/-- The key the eviction scan would select in the current state. -/
def candidateKey (c : Cache K V) : Option K :=
  (c.evictCandidate).map (fun e => e.1)

/-- Embeds Cache::removeLRU.  When no candidate was found the reference
dereferences the null pointer `oldest`; that crashed execution is modelled
by `none`. -/
def removeLRU (c : Cache K V) : Option (Cache K V) :=
  match c.evictCandidate with
  | none => none
  | some o => some (c.remove o.1).2

/-- Embeds Cache::put: fetch_add on the size counter first (the branch sees
the pre-increment value), eviction when the pre-increment value is ≥
capacity, then the timestamped insertion; returns true. -/
def put (c : Cache K V) (k : K) (v : V) (ts : Int) : Option (Bool × Cache K V) :=
  let prior := c.cacheSize
  let c1 : Cache K V := { c with cacheSize := prior + 1 }
  let afterEvict : Option (Cache K V) :=
    if prior ≥ c.capacity then c1.removeLRU else some c1
  afterEvict.map fun c2 =>
    (true, { c2 with buckets := setAt c2.buckets (c2.bucketIdx k) (HashTree.insertNode (c2.bucketOf k) k (v, ts)) })

/-- Wellformedness of a cache state: a positive number of buckets and every
bucket satisfying the search-tree invariant. -/
def WF (c : Cache K V) : Prop :=
  c.buckets ≠ [] ∧ ∀ b ∈ c.buckets, HashTree.isSearchTree b = true

/-- The values (with timestamps) that the key's own bucket stores under the
key; this is exactly what get/remove on that key can observe. -/
def valsAtKey (c : Cache K V) (k : K) : Multiset (V × Int) :=
  HashTree.valsAt (c.bucketOf k) k

/-- All entries stored anywhere in the cache. -/
def contents (c : Cache K V) : Multiset (K × V × Int) :=
  (c.buckets.map HashTree.entries).sum

theorem bucketIdx_lt (c : Cache K V) (hne : c.buckets ≠ []) (k : K) :
    c.bucketIdx k < c.buckets.length :=
  Nat.mod_lt _ (List.length_pos.mpr hne)

theorem isSearchTree_getD (bs : List (HashTree K (V × Int)))
    (h : ∀ b ∈ bs, HashTree.isSearchTree b = true) (i : Nat) :
    HashTree.isSearchTree (bs.getD i HashTree.nil) = true := by
  induction bs generalizing i with
  | nil => cases i <;> rfl
  | cons x xs ih =>
      cases i with
      | zero => exact h x (List.mem_cons_self x xs)
      | succ n =>
          simp only [List.getD_cons_succ]
          exact ih (fun b hb => h b (List.mem_cons_of_mem _ hb)) n

theorem isSearchTree_bucketOf (c : Cache K V) (hwf : WF c) (k : K) :
    HashTree.isSearchTree (c.bucketOf k) = true :=
  isSearchTree_getD c.buckets hwf.2 _

theorem remove_fst (c : Cache K V) (k : K) : (c.remove k).1 = true := rfl

theorem remove_cacheSize (c : Cache K V) (k : K) :
    (c.remove k).2.cacheSize = c.cacheSize - 1 := rfl

theorem bucketIdx_remove (c : Cache K V) (k j : K) :
    (c.remove k).2.bucketIdx j = c.bucketIdx j := by
  show c.hashFunc j % (setAt c.buckets _ _).length = _
  rw [length_setAt]
  rfl

theorem WF_remove (c : Cache K V) (hwf : WF c) (k : K) : WF (c.remove k).2 := by
  constructor
  · intro hnil
    apply hwf.1
    have hlen := length_setAt c.buckets (c.bucketIdx k) (HashTree.remove (c.bucketOf k) k)
    rw [show (c.remove k).2.buckets =
      setAt c.buckets (c.bucketIdx k) (HashTree.remove (c.bucketOf k) k) from rfl] at hnil
    rw [hnil] at hlen
    exact List.length_eq_zero.mp hlen.symm
  · intro b hb
    rcases mem_setAt _ _ _ _ hb with h1 | h1
    · exact hwf.2 b h1
    · rw [h1]
      exact HashTree.isSearchTree_remove _ (isSearchTree_bucketOf c hwf k) k

theorem valsAtKey_remove (c : Cache K V) (hwf : WF c) (k : K)
    (hc : Multiset.card (c.valsAtKey k) ≤ 1) (j : K) :
    (c.remove j).2.valsAtKey k = if j = k then 0 else c.valsAtKey k := by
  have hidxlt := bucketIdx_lt c hwf.1 j
  have hbix : (c.remove j).2.bucketIdx k = c.bucketIdx k := bucketIdx_remove c j k
  show HashTree.valsAt ((c.remove j).2.bucketOf k) k = _
  rw [show (c.remove j).2.bucketOf k =
    (setAt c.buckets (c.bucketIdx j) (HashTree.remove (c.bucketOf j) j)).getD
      ((c.remove j).2.bucketIdx k) HashTree.nil from rfl, hbix]
  by_cases hidx : c.bucketIdx k = c.bucketIdx j
  · rw [hidx, getD_setAt_self _ _ _ _ hidxlt]
    have hsame : c.bucketOf j = c.bucketOf k := by
      show c.buckets.getD (c.bucketIdx j) HashTree.nil =
        c.buckets.getD (c.bucketIdx k) HashTree.nil
      rw [hidx]
    rw [hsame]
    exact HashTree.valsAt_remove _ (isSearchTree_bucketOf c hwf k) k hc j
  · rw [getD_setAt_ne _ _ _ _ _ hidx]
    have hjk : ¬ j = k := fun he => hidx (by rw [he])
    rw [if_neg hjk]
    rfl

theorem WF_insertTS (c : Cache K V) (hwf : WF c) (k : K) (v : V) (ts : Int) :
    WF (c.insertTS k v ts) := by
  constructor
  · intro hnil
    apply hwf.1
    have hlen := length_setAt c.buckets (c.bucketIdx k)
      (HashTree.insertNode (c.bucketOf k) k (v, ts))
    rw [show (c.insertTS k v ts).buckets =
      setAt c.buckets (c.bucketIdx k) (HashTree.insertNode (c.bucketOf k) k (v, ts)) from
      rfl] at hnil
    rw [hnil] at hlen
    exact List.length_eq_zero.mp hlen.symm
  · intro b hb
    rcases mem_setAt _ _ _ _ hb with h1 | h1
    · exact hwf.2 b h1
    · rw [h1]
      exact HashTree.isSearchTree_insertNode _ (isSearchTree_bucketOf c hwf k) k (v, ts)

theorem valsAtKey_insertTS (c : Cache K V) (hne : c.buckets ≠ []) (k : K) (v : V)
    (ts : Int) (j : K) :
    (c.insertTS k v ts).valsAtKey j =
      if k = j then (v, ts) ::ₘ c.valsAtKey j else c.valsAtKey j := by
  have hidxlt := bucketIdx_lt c hne k
  have hbix : (c.insertTS k v ts).bucketIdx j = c.bucketIdx j := by
    show c.hashFunc j % (setAt c.buckets _ _).length = _
    rw [length_setAt]
    rfl
  show HashTree.valsAt ((c.insertTS k v ts).bucketOf j) j = _
  rw [show (c.insertTS k v ts).bucketOf j =
    (setAt c.buckets (c.bucketIdx k) (HashTree.insertNode (c.bucketOf k) k (v, ts))).getD
      ((c.insertTS k v ts).bucketIdx j) HashTree.nil from rfl, hbix]
  by_cases hidx : c.bucketIdx j = c.bucketIdx k
  · rw [hidx, getD_setAt_self _ _ _ _ hidxlt]
    rw [HashTree.valsAt_insertNode]
    by_cases hkj : k = j
    · rw [if_pos hkj, if_pos hkj]
      subst hkj
      rfl
    · rw [if_neg hkj, if_neg hkj]
      show HashTree.valsAt (c.buckets.getD (c.bucketIdx k) HashTree.nil) j = _
      rw [← hidx]
      rfl
  · have hkj : ¬ k = j := fun he => hidx (by rw [he])
    rw [if_neg hkj, getD_setAt_ne _ _ _ _ _ hidx]
    rfl

theorem contents_insertTS (c : Cache K V) (hne : c.buckets ≠ []) (k : K) (v : V)
    (ts : Int) :
    (c.insertTS k v ts).contents = (k, (v, ts)) ::ₘ c.contents := by
  have h := map_sum_setAt HashTree.entries c.buckets (c.bucketIdx k)
    (HashTree.insertNode (c.bucketOf k) k (v, ts)) HashTree.nil (bucketIdx_lt c hne k)
  rw [HashTree.entries_insertNode] at h
  have h2 : (c.insertTS k v ts).contents + HashTree.entries (c.bucketOf k) =
      c.contents + ((k, (v, ts)) ::ₘ HashTree.entries (c.bucketOf k)) := h
  rw [Multiset.add_cons, ← Multiset.cons_add] at h2
  exact add_right_cancel h2

theorem scanStep_some (acc : Option (K × V × Int)) (b : HashTree K (V × Int))
    (e : K × V × Int) (h : scanStep acc b = some e) :
    (acc = some e ∨ e ∈ HashTree.entries b) ∧
    (∀ a, acc = some a → e.2.2 ≤ a.2.2) ∧
    (∀ x ∈ HashTree.entries b, e.2.2 ≤ x.2.2) := by
  cases hS : HashTree.seekWithComparator b HashTree.lruComp with
  | none =>
      have hb : b = HashTree.nil := (HashTree.seek_eq_none_iff b).mp hS
      subst hb
      simp only [scanStep, hS] at h
      refine ⟨Or.inl h, fun a ha => ?_, fun x hx => ?_⟩
      · rw [h] at ha
        obtain rfl : e = a := by simpa using ha
        exact le_refl _
      · simp [HashTree.entries] at hx
  | some cur =>
      obtain ⟨hmem, hmin⟩ := HashTree.seek_lruComp_min b cur hS
      cases acc with
      | none =>
          simp only [scanStep, hS] at h
          obtain rfl : cur = e := by simpa using h
          exact ⟨Or.inr hmem, fun a ha => by simp at ha, hmin⟩
      | some o =>
          simp only [scanStep, hS] at h
          by_cases hlt : cur.2.2 < o.2.2
          · rw [if_pos hlt] at h
            obtain rfl : cur = e := by simpa using h
            refine ⟨Or.inr hmem, fun a ha => ?_, hmin⟩
            obtain rfl : o = a := by simpa using ha
            exact le_of_lt hlt
          · rw [if_neg hlt] at h
            obtain rfl : o = e := by simpa using h
            refine ⟨Or.inl rfl, fun a ha => ?_, fun x hx => ?_⟩
            · obtain rfl : o = a := by simpa using ha
              exact le_refl _
            · exact le_trans (le_of_not_lt hlt) (hmin x hx)

theorem scanStep_none (acc : Option (K × V × Int)) (b : HashTree K (V × Int))
    (h : scanStep acc b = none) :
    acc = none ∧ HashTree.entries b = 0 := by
  cases hS : HashTree.seekWithComparator b HashTree.lruComp with
  | none =>
      have hb : b = HashTree.nil := (HashTree.seek_eq_none_iff b).mp hS
      subst hb
      simp only [scanStep, hS] at h
      exact ⟨h, rfl⟩
  | some cur =>
      exfalso
      cases acc with
      | none => simp [scanStep, hS] at h
      | some o =>
          simp only [scanStep, hS] at h
          by_cases hlt : cur.2.2 < o.2.2
          · rw [if_pos hlt] at h; exact Option.noConfusion h
          · rw [if_neg hlt] at h; exact Option.noConfusion h

theorem scanFold_none (bs : List (HashTree K (V × Int))) :
    ∀ acc, bs.foldl scanStep acc = none →
      acc = none ∧ (bs.map HashTree.entries).sum = 0 := by
  induction bs with
  | nil => intro acc h; exact ⟨h, rfl⟩
  | cons b bs ih =>
      intro acc h
      simp only [List.foldl_cons] at h
      obtain ⟨h1, h2⟩ := ih (scanStep acc b) h
      obtain ⟨h3, h4⟩ := scanStep_none acc b h1
      simp only [List.map_cons, List.sum_cons, h4, h2]
      exact ⟨h3, by simp⟩

theorem scanFold_some (bs : List (HashTree K (V × Int))) :
    ∀ acc e, bs.foldl scanStep acc = some e →
      (acc = some e ∨ e ∈ (bs.map HashTree.entries).sum) ∧
      (∀ a, acc = some a → e.2.2 ≤ a.2.2) ∧
      (∀ x ∈ (bs.map HashTree.entries).sum, e.2.2 ≤ x.2.2) := by
  induction bs with
  | nil =>
      intro acc e h
      simp only [List.foldl_nil] at h
      refine ⟨Or.inl h, fun a ha => ?_, fun x hx => ?_⟩
      · rw [h] at ha
        obtain rfl : e = a := by simpa using ha
        exact le_refl _
      · simp at hx
  | cons b bs ih =>
      intro acc e h
      simp only [List.foldl_cons] at h
      obtain ⟨H1, H2, H3⟩ := ih (scanStep acc b) e h
      have hstep : ∀ a, acc = some a → e.2.2 ≤ a.2.2 := by
        intro a ha
        cases hsc : scanStep acc b with
        | none => rw [(scanStep_none acc b hsc).1] at ha; exact Option.noConfusion ha
        | some c1 =>
            have hec : e.2.2 ≤ c1.2.2 := H2 c1 hsc
            have := (scanStep_some acc b c1 hsc).2.1 a ha
            exact le_trans hec this
      have hentb : ∀ x ∈ HashTree.entries b, e.2.2 ≤ x.2.2 := by
        intro x hx
        cases hsc : scanStep acc b with
        | none =>
            rw [(scanStep_none acc b hsc).2] at hx
            simp at hx
        | some c1 =>
            have hec : e.2.2 ≤ c1.2.2 := H2 c1 hsc
            exact le_trans hec ((scanStep_some acc b c1 hsc).2.2 x hx)
      refine ⟨?_, hstep, ?_⟩
      · rcases H1 with H1 | H1
        · rcases (scanStep_some acc b e H1).1 with h1 | h1
          · exact Or.inl h1
          · right
            simp only [List.map_cons, List.sum_cons]
            exact Multiset.mem_add.mpr (Or.inl h1)
        · right
          simp only [List.map_cons, List.sum_cons]
          exact Multiset.mem_add.mpr (Or.inr H1)
      · intro x hx
        simp only [List.map_cons, List.sum_cons] at hx
        rcases Multiset.mem_add.mp hx with hx | hx
        · exact hentb x hx
        · exact H3 x hx

/-- A successfully found eviction candidate is a stored entry with a
globally minimal timestamp. -/
theorem evictCandidate_spec (c : Cache K V) (e : K × V × Int)
    (h : c.evictCandidate = some e) :
    e ∈ c.contents ∧ ∀ x ∈ c.contents, e.2.2 ≤ x.2.2 := by
  obtain ⟨H1, _, H3⟩ := scanFold_some c.buckets none e h
  rcases H1 with H1 | H1
  · exact Option.noConfusion H1
  · exact ⟨H1, H3⟩

theorem evictCandidate_none (c : Cache K V) (h : c.evictCandidate = none) :
    c.contents = 0 :=
  (scanFold_none c.buckets none h).2

theorem evictCandidate_isSome (c : Cache K V) (h : c.contents ≠ 0) :
    ∃ e, c.evictCandidate = some e := by
  cases hE : c.evictCandidate with
  | none => exact absurd (evictCandidate_none c hE) h
  | some e => exact ⟨e, rfl⟩

theorem removeLRU_eq_none (c : Cache K V) (h : c.evictCandidate = none) :
    c.removeLRU = none := by
  unfold removeLRU
  rw [h]

theorem removeLRU_eq_some (c : Cache K V) (e : K × V × Int)
    (h : c.evictCandidate = some e) :
    c.removeLRU = some (c.remove e.1).2 := by
  unfold removeLRU
  rw [h]

theorem removeLRU_some_inv (c c' : Cache K V) (h : c.removeLRU = some c') :
    ∃ e, c.evictCandidate = some e ∧ c' = (c.remove e.1).2 := by
  cases hE : c.evictCandidate with
  | none => rw [removeLRU_eq_none c hE] at h; exact Option.noConfusion h
  | some e =>
      rw [removeLRU_eq_some c e hE] at h
      exact ⟨e, rfl, by simpa using h.symm⟩

/-- Cache::put unfolded: the counter is incremented first; eviction runs
(before the insertion) exactly when the pre-increment counter is at least
the capacity; the result flag is always true. -/
theorem put_eq (c : Cache K V) (k : K) (v : V) (ts : Int) :
    c.put k v ts =
      (if c.cacheSize ≥ c.capacity
       then Cache.removeLRU { c with cacheSize := c.cacheSize + 1 }
       else some { c with cacheSize := c.cacheSize + 1 }).map
        (fun c2 => (true, c2.insertTS k v ts)) := rfl

theorem get_of_valsAtKey_zero [Inhabited V] (c : Cache K V) (k : K)
    (h : c.valsAtKey k = 0) : c.get k = (false, default) := by
  have hn := HashTree.getVal_eq_none (c.bucketOf k) k h
  simp [get, hn]

theorem get_of_valsAtKey_singleton [Inhabited V] (c : Cache K V) (hwf : WF c) (k : K)
    (v : V) (ts : Int) (h : c.valsAtKey k = {(v, ts)}) : c.get k = (true, v) := by
  have hu := HashTree.getVal_unique (c.bucketOf k) (isSearchTree_bucketOf c hwf k) k (v, ts) h
  simp [get, hu]

theorem remove_keeps_valsAtKey (c : Cache K V) (hwf : WF c) (k : K)
    (S : Multiset (V × Int)) (hcard : Multiset.card S ≤ 1) (hS : c.valsAtKey k = S)
    (m : K) (hm : m ≠ k ∨ S = 0) : (c.remove m).2.valsAtKey k = S := by
  rw [valsAtKey_remove c hwf k (by rw [hS]; exact hcard) m]
  by_cases hmk : m = k
  · rw [if_pos hmk]
    rcases hm with hm | hm
    · exact absurd hmk hm
    · exact hm.symm
  · rw [if_neg hmk]
    exact hS

/-- A put of a key that is absent from its bucket always stores exactly that
entry under the key (any eviction the put triggers acts on the pre-insert
state) and reports true. -/
theorem put_fresh (c : Cache K V) (hwf : WF c) (k : K) (hz : c.valsAtKey k = 0)
    (v : V) (ts : Int) (b : Bool) (c' : Cache K V) (h : c.put k v ts = some (b, c')) :
    WF c' ∧ c'.valsAtKey k = {(v, ts)} ∧ b = true := by
  rw [put_eq] at h
  have hwf1 : WF { c with cacheSize := c.cacheSize + 1 } := ⟨hwf.1, hwf.2⟩
  have hz1 : Cache.valsAtKey { c with cacheSize := c.cacheSize + 1 } k = 0 := hz
  by_cases htr : c.cacheSize ≥ c.capacity
  · rw [if_pos htr] at h
    cases hRL : Cache.removeLRU { c with cacheSize := c.cacheSize + 1 } with
    | none => rw [hRL] at h; exact Option.noConfusion h
    | some c2 =>
        rw [hRL] at h
        obtain ⟨hb, hc'⟩ : true = b ∧ c2.insertTS k v ts = c' := by simpa using h
        obtain ⟨e, hE, hc2⟩ := removeLRU_some_inv _ c2 hRL
        subst hc2
        have hwf2 := WF_remove _ hwf1 e.1
        have hz2 := remove_keeps_valsAtKey _ hwf1 k 0 (by simp) hz1 e.1 (Or.inr rfl)
        subst hc'
        refine ⟨WF_insertTS _ hwf2 k v ts, ?_, hb.symm⟩
        rw [valsAtKey_insertTS _ hwf2.1 k v ts k, if_pos rfl, hz2]
        rfl
  · rw [if_neg htr] at h
    obtain ⟨hb, hc'⟩ :
        true = b ∧ Cache.insertTS { c with cacheSize := c.cacheSize + 1 } k v ts = c' := by
      simpa using h
    subst hc'
    refine ⟨WF_insertTS _ hwf1 k v ts, ?_, hb.symm⟩
    rw [valsAtKey_insertTS _ hwf1.1 k v ts k, if_pos rfl, hz1]
    rfl

theorem put_step (c : Cache K V) (hwf : WF c) (k : K) (S : Multiset (V × Int))
    (hcard : Multiset.card S ≤ 1) (hS : c.valsAtKey k = S) (j : K) (hjk : ¬ j = k)
    (hev : c.cacheSize ≥ c.capacity → (c.candidateKey ≠ some k ∨ S = 0))
    (v : V) (ts : Int) (c' : Cache K V) (h : (c.put j v ts).map Prod.snd = some c') :
    WF c' ∧ c'.valsAtKey k = S := by
  rw [put_eq] at h
  have hwf1 : WF { c with cacheSize := c.cacheSize + 1 } := ⟨hwf.1, hwf.2⟩
  have hS1 : Cache.valsAtKey { c with cacheSize := c.cacheSize + 1 } k = S := hS
  by_cases htr : c.cacheSize ≥ c.capacity
  · rw [if_pos htr] at h
    cases hRL : Cache.removeLRU { c with cacheSize := c.cacheSize + 1 } with
    | none => rw [hRL] at h; exact Option.noConfusion h
    | some c2 =>
        rw [hRL] at h
        obtain rfl : c2.insertTS j v ts = c' := by simpa using h
        obtain ⟨e, hE, hc2⟩ := removeLRU_some_inv _ c2 hRL
        have hcand : c.candidateKey = some e.1 := by
          unfold candidateKey
          rw [show c.evictCandidate =
            Cache.evictCandidate { c with cacheSize := c.cacheSize + 1 } from rfl, hE]
          rfl
        have hm : e.1 ≠ k ∨ S = 0 := by
          rcases hev htr with hne | hz
          · left
            intro hek
            exact hne (by rw [hek] at hcand; exact hcand)
          · right; exact hz
        subst hc2
        have hwf2 : WF (Cache.remove { c with cacheSize := c.cacheSize + 1 } e.1).2 :=
          WF_remove _ hwf1 e.1
        have hS2 := remove_keeps_valsAtKey _ hwf1 k S hcard hS1 e.1 hm
        refine ⟨WF_insertTS _ hwf2 j v ts, ?_⟩
        rw [valsAtKey_insertTS _ hwf2.1 j v ts k, if_neg hjk]
        exact hS2
  · rw [if_neg htr] at h
    obtain rfl : Cache.insertTS { c with cacheSize := c.cacheSize + 1 } j v ts = c' := by
      simpa using h
    refine ⟨WF_insertTS _ hwf1 j v ts, ?_⟩
    rw [valsAtKey_insertTS _ hwf1.1 j v ts k, if_neg hjk]
    exact hS1

end Cache

/-- One sequential client operation against the cache. -/
inductive CacheOp (K V : Type) where
  | putOp (k : K) (v : V) (ts : Int) : CacheOp K V
  | removeOp (k : K) : CacheOp K V
  | evictOp : CacheOp K V

/-- Execute one operation; `none` is a crashed execution. -/
def stepOp {K V : Type} [LinearOrder K] (c : Cache K V) : CacheOp K V → Option (Cache K V)
  | CacheOp.putOp k v ts => (c.put k v ts).map Prod.snd
  | CacheOp.removeOp k => some (c.remove k).2
  | CacheOp.evictOp => c.removeLRU

/-- Execute a sequence of operations. -/
def runOps {K V : Type} [LinearOrder K] (c : Cache K V) : List (CacheOp K V) → Option (Cache K V)
  | [] => some c
  | op :: ops =>
      match stepOp c op with
      | none => none
      | some c' => runOps c' ops

/-- The operation is neither a put nor a remove of the given key. -/
def CacheOp.avoidsKey {K V : Type} [DecidableEq K] (k : K) : CacheOp K V → Bool
  | CacheOp.putOp j _ _ => decide (j ≠ k)
  | CacheOp.removeOp j => decide (j ≠ k)
  | CacheOp.evictOp => true

/-- The operation is not a put of the given key. -/
def CacheOp.avoidsPut {K V : Type} [DecidableEq K] (k : K) : CacheOp K V → Bool
  | CacheOp.putOp j _ _ => decide (j ≠ k)
  | CacheOp.removeOp _ => true
  | CacheOp.evictOp => true

/-- Every eviction performed while executing the operations from the given
state selects a candidate whose key differs from `k`. -/
def runAvoidsEvict {K V : Type} [LinearOrder K] (k : K) (c : Cache K V) :
    List (CacheOp K V) → Bool
  | [] => true
  | op :: ops =>
      (match op with
       | CacheOp.putOp _ _ _ =>
           if c.cacheSize ≥ c.capacity then decide (c.candidateKey ≠ some k) else true
       | CacheOp.removeOp _ => true
       | CacheOp.evictOp => decide (c.candidateKey ≠ some k)) &&
      (match stepOp c op with
       | none => true
       | some c' => runAvoidsEvict k c' ops)

section RunLemmas

variable {K V : Type} [LinearOrder K]

theorem runOps_nil (c : Cache K V) : runOps c [] = some c := rfl

theorem runOps_cons (c : Cache K V) (op : CacheOp K V) (ops : List (CacheOp K V)) :
    runOps c (op :: ops) =
      match stepOp c op with
      | none => none
      | some c' => runOps c' ops := rfl

theorem runAvoidsEvict_cons (k : K) (c : Cache K V) (op : CacheOp K V)
    (ops : List (CacheOp K V)) :
    runAvoidsEvict k c (op :: ops) =
      ((match op with
        | CacheOp.putOp _ _ _ =>
            if c.cacheSize ≥ c.capacity then decide (c.candidateKey ≠ some k) else true
        | CacheOp.removeOp _ => true
        | CacheOp.evictOp => decide (c.candidateKey ≠ some k)) &&
       (match stepOp c op with
        | none => true
        | some c' => runAvoidsEvict k c' ops)) := rfl

/-- Running a list of operations preserves wellformedness and the stored
values under a key `k`, provided no operation puts `k`, and — unless `k` is
absent (S = 0) — no operation removes `k` and no eviction along the run
selects `k`. -/
theorem runOps_keeps (k : K) (S : Multiset (V × Int)) (hcard : Multiset.card S ≤ 1) :
    ∀ (ops : List (CacheOp K V)) (c : Cache K V), Cache.WF c → c.valsAtKey k = S →
      (∀ op ∈ ops, op.avoidsPut k = true) →
      (S = 0 ∨ ((∀ op ∈ ops, op.avoidsKey k = true) ∧ runAvoidsEvict k c ops = true)) →
      ∀ c', runOps c ops = some c' → Cache.WF c' ∧ c'.valsAtKey k = S := by
  intro ops
  induction ops with
  | nil =>
      intro c hwf hS _ _ c' h
      obtain rfl : c = c' := by simpa [runOps] using h
      exact ⟨hwf, hS⟩
  | cons op ops ih =>
      intro c hwf hS havoid hcond c' h
      rw [runOps_cons] at h
      cases hstep : stepOp c op with
      | none => rw [hstep] at h; exact Option.noConfusion h
      | some c1 =>
          rw [hstep] at h
          have hkeep : Cache.WF c1 ∧ c1.valsAtKey k = S := by
            cases op with
            | putOp j v ts =>
                have hjk : ¬ j = k := by
                  have := havoid _ (List.mem_cons_self ..)
                  simpa [CacheOp.avoidsPut] using this
                have hev : c.cacheSize ≥ c.capacity →
                    (c.candidateKey ≠ some k ∨ S = 0) := by
                  intro htr
                  rcases hcond with hz | ⟨_, hrun⟩
                  · right; exact hz
                  · left
                    rw [runAvoidsEvict_cons, Bool.and_eq_true] at hrun
                    have hhead := hrun.1
                    rw [if_pos htr] at hhead
                    exact of_decide_eq_true hhead
                exact Cache.put_step c hwf k S hcard hS j hjk hev v ts c1 hstep
            | removeOp j =>
                obtain rfl : (c.remove j).2 = c1 := by simpa [stepOp] using hstep
                have hm : j ≠ k ∨ S = 0 := by
                  rcases hcond with hz | ⟨hkeys, _⟩
                  · right; exact hz
                  · left
                    have := hkeys _ (List.mem_cons_self ..)
                    simpa [CacheOp.avoidsKey] using this
                exact ⟨Cache.WF_remove c hwf j,
                  Cache.remove_keeps_valsAtKey c hwf k S hcard hS j hm⟩
            | evictOp =>
                have hRL : c.removeLRU = some c1 := hstep
                obtain ⟨e, hE, hc1⟩ := Cache.removeLRU_some_inv c c1 hRL
                have hm : e.1 ≠ k ∨ S = 0 := by
                  rcases hcond with hz | ⟨_, hrun⟩
                  · right; exact hz
                  · left
                    rw [runAvoidsEvict_cons, Bool.and_eq_true] at hrun
                    have hnk := of_decide_eq_true hrun.1
                    intro hek
                    apply hnk
                    rw [show c.candidateKey = (c.evictCandidate).map (fun x => x.1) from rfl,
                      hE]
                    simp [hek]
                subst hc1
                exact ⟨Cache.WF_remove c hwf e.1,
                  Cache.remove_keeps_valsAtKey c hwf k S hcard hS e.1 hm⟩
          have htail : S = 0 ∨ ((∀ op2 ∈ ops, op2.avoidsKey k = true) ∧
              runAvoidsEvict k c1 ops = true) := by
            rcases hcond with hz | ⟨hkeys, hrun⟩
            · left; exact hz
            · right
              refine ⟨fun op2 h2 => hkeys op2 (List.mem_cons_of_mem _ h2), ?_⟩
              rw [runAvoidsEvict_cons, Bool.and_eq_true] at hrun
              have := hrun.2
              rw [hstep] at this
              exact this
          exact ih c1 hkeep.1 hkeep.2 (fun op2 h2 => havoid op2 (List.mem_cons_of_mem _ h2))
            htail c' h

end RunLemmas

section ClaimSupport

variable {K V : Type} [LinearOrder K]

theorem setAt_getD_self {α : Type} (l : List α) (i : Nat) (d : α) :
    setAt l i (l.getD i d) = l := by
  induction l generalizing i with
  | nil => cases i <;> rfl
  | cons x xs ih =>
      cases i with
      | zero => rfl
      | succ n =>
          show x :: setAt xs n ((x :: xs).getD (n + 1) d) = x :: xs
          rw [List.getD_cons_succ, ih n]

theorem getD_mem_or_default {α : Type} (l : List α) (i : Nat) (d : α) :
    l.getD i d ∈ l ∨ l.getD i d = d := by
  induction l generalizing i with
  | nil => right; cases i <;> rfl
  | cons x xs ih =>
      cases i with
      | zero => left; exact List.mem_cons_self x xs
      | succ n =>
          rw [List.getD_cons_succ]
          rcases ih n with h | h
          · left; exact List.mem_cons_of_mem _ h
          · right; exact h

theorem CacheOp.avoidsKey_avoidsPut (k : K) (op : CacheOp K V)
    (h : op.avoidsKey k = true) : op.avoidsPut k = true := by
  cases op with
  | putOp j v ts => simpa [CacheOp.avoidsKey, CacheOp.avoidsPut] using h
  | removeOp j => rfl
  | evictOp => rfl

/-- Concrete single-bucket cache used to instantiate the theorems. -/
def wCache : Cache Int Int :=
  { capacity := 100, hashFunc := fun _ => 0, buckets := [HashTree.nil], cacheSize := 0 }

/-- wCache after put(1, 5) at time 3. -/
def wCache1 : Cache Int Int :=
  { capacity := 100, hashFunc := fun _ => 0,
    buckets := [HashTree.node 1 (5, 3) HashTree.nil HashTree.nil], cacheSize := 1 }

/-- A strict BST that the two-child delete case breaks (it contains a
duplicate key, as insertion creates them). -/
def tDup : HashTree Int Int :=
  HashTree.node 3 0 (HashTree.node 1 1 HashTree.nil HashTree.nil)
    (HashTree.node 5 10 (HashTree.node 5 20 HashTree.nil HashTree.nil) HashTree.nil)

/-- A small search tree for witnesses. -/
def tW : HashTree Int Int :=
  HashTree.node 2 0 (HashTree.node 1 0 HashTree.nil HashTree.nil)
    (HashTree.node 3 0 HashTree.nil HashTree.nil)

/-- A one-node timestamped tree for the seek witness. -/
def tSeek : HashTree Int (Int × Int) :=
  HashTree.node 1 (5, 3) HashTree.nil HashTree.nil

/-- The put operations for a list of (key, value, timestamp) items. -/
def putsOf {K V : Type} (items : List (K × V × Int)) : List (CacheOp K V) :=
  items.map (fun e => CacheOp.putOp e.1 e.2.1 e.2.2)

/-- The (value, timestamp) pairs a list of items stores under a key. -/
def itemsValsAt {K V : Type} [DecidableEq K] (items : List (K × V × Int)) (k : K) :
    Multiset (V × Int) :=
  ↑(items.filterMap (fun e => if e.1 = k then some e.2 else none))

/-- A cache as the constructor builds it: the requested capacity, the given
hash function, all buckets empty, size zero. -/
def mkEmptyCache {K V : Type} (cap : Nat) (hf : K → Nat) (nb : Nat) : Cache K V :=
  { capacity := (cap : Int), hashFunc := hf,
    buckets := List.replicate nb HashTree.nil, cacheSize := 0 }

theorem WF_mkEmptyCache (cap : Nat) (hf : K → Nat) (nb : Nat) (hnb : 0 < nb) :
    Cache.WF (mkEmptyCache cap hf nb : Cache K V) := by
  constructor
  · show List.replicate nb (HashTree.nil : HashTree K (V × Int)) ≠ []
    intro h
    have := congrArg List.length h
    rw [List.length_replicate] at this
    simp at this
    omega
  · intro b hb
    rw [List.eq_of_mem_replicate hb]
    rfl

theorem contents_mkEmptyCache (cap : Nat) (hf : K → Nat) (nb : Nat) :
    (mkEmptyCache cap hf nb : Cache K V).contents = 0 := by
  show ((List.replicate nb (HashTree.nil : HashTree K (V × Int))).map HashTree.entries).sum = 0
  induction nb with
  | zero => rfl
  | succ n ih =>
      rw [List.replicate_succ, List.map_cons, List.sum_cons, ih]
      rfl

theorem valsAtKey_mkEmptyCache (cap : Nat) (hf : K → Nat) (nb : Nat) (k : K) :
    (mkEmptyCache cap hf nb : Cache K V).valsAtKey k = 0 := by
  show HashTree.valsAt
    ((mkEmptyCache cap hf nb : Cache K V).buckets.getD
      ((mkEmptyCache cap hf nb : Cache K V).bucketIdx k) HashTree.nil) k = 0
  rcases getD_mem_or_default (mkEmptyCache cap hf nb : Cache K V).buckets
      ((mkEmptyCache cap hf nb : Cache K V).bucketIdx k) HashTree.nil with hm | hm
  · rw [List.eq_of_mem_replicate hm]
    rfl
  · rw [hm]
    rfl

theorem itemsValsAt_nil {k : K} : itemsValsAt ([] : List (K × V × Int)) k = 0 := rfl

theorem itemsValsAt_cons (e : K × V × Int) (rest : List (K × V × Int)) (k : K) :
    itemsValsAt (e :: rest) k =
      if e.1 = k then e.2 ::ₘ itemsValsAt rest k else itemsValsAt rest k := by
  by_cases h : e.1 = k <;> simp [itemsValsAt, List.filterMap_cons, h]

theorem itemsValsAt_card (items : List (K × V × Int))
    (hkeys : (items.map (fun e => e.1)).Nodup) (k : K) :
    Multiset.card (itemsValsAt items k) ≤ 1 := by
  induction items with
  | nil => simp [itemsValsAt_nil]
  | cons e rest ih =>
      simp only [List.map_cons, List.nodup_cons] at hkeys
      rw [itemsValsAt_cons]
      by_cases h : e.1 = k
      · rw [if_pos h]
        have hz : itemsValsAt rest k = 0 := by
          have : ∀ x ∈ rest, ¬ x.1 = k := by
            intro x hx hxk
            exact hkeys.1 (by
              rw [h, ← hxk]
              exact List.mem_map_of_mem _ hx)
          unfold itemsValsAt
          rw [List.filterMap_eq_nil_iff.mpr (fun x hx => by rw [if_neg (this x hx)])]
          rfl
        rw [hz]
        simp
      · rw [if_neg h]
        exact ih hkeys.2

theorem itemsValsAt_absent (items : List (K × V × Int)) (k : K)
    (h : ∀ x ∈ items, ¬ x.1 = k) : itemsValsAt items k = 0 := by
  unfold itemsValsAt
  rw [List.filterMap_eq_nil_iff.mpr (fun x hx => by rw [if_neg (h x hx)])]
  rfl

theorem itemsValsAt_mem (items : List (K × V × Int))
    (hkeys : (items.map (fun e => e.1)).Nodup) (e : K × V × Int) (he : e ∈ items) :
    itemsValsAt items (e.1) = {e.2} := by
  induction items with
  | nil => simp at he
  | cons x rest ih =>
      simp only [List.map_cons, List.nodup_cons] at hkeys
      rcases List.mem_cons.mp he with rfl | he
      · rw [itemsValsAt_cons, if_pos rfl,
          itemsValsAt_absent rest e.1 (fun y hy hyk => hkeys.1 (by
            rw [← hyk]
            exact List.mem_map_of_mem _ hy))]
        rfl
      · rw [itemsValsAt_cons]
        have hne : ¬ x.1 = e.1 := fun hx =>
          hkeys.1 (by rw [hx]; exact List.mem_map_of_mem _ he)
        rw [if_neg hne]
        exact ih hkeys.2 he

theorem runOps_append {K V : Type} [LinearOrder K] (a b : List (CacheOp K V)) :
    ∀ c : Cache K V, runOps c (a ++ b) =
      match runOps c a with
      | none => none
      | some c' => runOps c' b := by
  induction a with
  | nil => intro c; rfl
  | cons op a ih =>
      intro c
      rw [List.cons_append, runOps_cons, runOps_cons]
      cases hstep : stepOp c op with
      | none => rfl
      | some c1 => exact ih c1

/-- Filling a wellformed cache with puts that stay within capacity: no
eviction fires, every put succeeds, and the contents and per-key values
grow exactly by the inserted items. -/
theorem runPuts_no_evict {K V : Type} [LinearOrder K] :
    ∀ (items : List (K × V × Int)) (c : Cache K V), Cache.WF c →
      c.cacheSize + (items.length : Int) ≤ c.capacity →
      ∃ cf, runOps c (putsOf items) = some cf ∧ Cache.WF cf ∧
        cf.capacity = c.capacity ∧
        cf.cacheSize = c.cacheSize + (items.length : Int) ∧
        cf.contents = ↑items + c.contents ∧
        ∀ k, cf.valsAtKey k = itemsValsAt items k + c.valsAtKey k := by
  intro items
  induction items with
  | nil =>
      intro c hwf _
      refine ⟨c, rfl, hwf, rfl, by simp, by simp, fun k => by rw [itemsValsAt_nil, zero_add]⟩
  | cons e rest ih =>
      intro c hwf hcap
      have hlen : ((e :: rest).length : Int) = (rest.length : Int) + 1 := by
        push_cast [List.length_cons]
        ring
      have hnotr : ¬ c.cacheSize ≥ c.capacity := by
        rw [hlen] at hcap
        have : (0 : Int) ≤ (rest.length : Int) := Int.ofNat_nonneg _
        omega
      have hput : c.put e.1 e.2.1 e.2.2 =
          some (true, Cache.insertTS { c with cacheSize := c.cacheSize + 1 } e.1 e.2.1 e.2.2) := by
        rw [Cache.put_eq, if_neg hnotr]
        rfl
      have hwfb : Cache.WF { c with cacheSize := c.cacheSize + 1 } := ⟨hwf.1, hwf.2⟩
      have hwf1 : Cache.WF (Cache.insertTS { c with cacheSize := c.cacheSize + 1 } e.1 e.2.1 e.2.2) :=
        Cache.WF_insertTS _ hwfb _ _ _
      have hcap2 : (Cache.insertTS { c with cacheSize := c.cacheSize + 1 } e.1 e.2.1 e.2.2).cacheSize +
          (rest.length : Int) ≤
          (Cache.insertTS { c with cacheSize := c.cacheSize + 1 } e.1 e.2.1 e.2.2).capacity := by
        show c.cacheSize + 1 + (rest.length : Int) ≤ c.capacity
        rw [hlen] at hcap
        omega
      obtain ⟨cf, hrun, hwff, hcapf, hszf, hcontf, hvalsf⟩ := ih _ hwf1 hcap2
      refine ⟨cf, ?_, hwff, hcapf, ?_, ?_, ?_⟩
      · rw [show putsOf (e :: rest) =
          CacheOp.putOp e.1 e.2.1 e.2.2 :: putsOf rest from rfl, runOps_cons,
          show stepOp c (CacheOp.putOp e.1 e.2.1 e.2.2) =
            some (Cache.insertTS { c with cacheSize := c.cacheSize + 1 } e.1 e.2.1 e.2.2) from by
            show (c.put e.1 e.2.1 e.2.2).map Prod.snd = _
            rw [hput]
            rfl]
        exact hrun
      · rw [hszf, hlen]
        show c.cacheSize + 1 + (rest.length : Int) = _
        ring
      · rw [hcontf,
          Cache.contents_insertTS _ hwfb.1 e.1 e.2.1 e.2.2,
          show Cache.contents { c with cacheSize := c.cacheSize + 1 } = c.contents from rfl,
          show ((e :: rest : List (K × V × Int)) : Multiset (K × V × Int)) =
            e ::ₘ ↑rest from rfl,
          Multiset.add_cons, Multiset.cons_add]
      · intro k
        rw [hvalsf k,
          Cache.valsAtKey_insertTS _ hwfb.1 e.1 e.2.1 e.2.2 k,
          show Cache.valsAtKey { c with cacheSize := c.cacheSize + 1 } k = c.valsAtKey k from rfl,
          itemsValsAt_cons]
        by_cases h : e.1 = k
        · rw [if_pos h, if_pos h, Multiset.add_cons, Multiset.cons_add]
        · rw [if_neg h, if_neg h]

end ClaimSupport

section Claims

variable {K V : Type} [LinearOrder K]

/-- C1 (amended): in a sequential execution, if `put(k, v)` succeeds while
`k` is absent from the cache, and afterwards no operation puts or removes
`k` and no eviction performed along the run selects `k`, then `get(k)`
returns `(true, v)`.  (The original claim also covered a put over an
already-present `k`; the counterexample shows that case fails because the
duplicate shadow node is invisible to lookup.) -/
theorem C1_fresh_put_get [Inhabited V] (c : Cache K V) (k : K) (v : V) (ts : Int)
    (hwf : Cache.WF c) (habs : c.valsAtKey k = 0)
    (b : Bool) (c1 : Cache K V) (hput : c.put k v ts = some (b, c1))
    (ops : List (CacheOp K V)) (hops : ∀ op ∈ ops, op.avoidsKey k = true)
    (hev : runAvoidsEvict k c1 ops = true)
    (cf : Cache K V) (hrun : runOps c1 ops = some cf) :
    cf.get k = (true, v) := by
  obtain ⟨hwf1, hS1, _⟩ := Cache.put_fresh c hwf k habs v ts b c1 hput
  have hkeep := runOps_keeps k {(v, ts)} (by simp) ops c1 hwf1 hS1
    (fun op h => CacheOp.avoidsKey_avoidsPut k op (hops op h))
    (Or.inr ⟨hops, hev⟩) cf hrun
  exact Cache.get_of_valsAtKey_singleton cf hkeep.1 k v ts hkeep.2

theorem C1_fresh_put_get_witness : Cache.get wCache1 1 = (true, 5) :=
  C1_fresh_put_get wCache 1 5 3 ⟨by decide, by decide⟩ (by decide)
    true wCache1 rfl [] (by simp) rfl wCache1 rfl

/-- C1 counterexample: put(1, 10) then put(1, 20) (the put being the
overwrite), no eviction, no later overwrite — yet get(1) returns the
original value 10, not 20 as the claim requires. -/
theorem C1_overwrite_counterexample :
    (match runOps wCache [CacheOp.putOp 1 10 1, CacheOp.putOp 1 20 2] with
     | some cf => cf.get 1
     | none => (false, 0)) = (true, 10) ∧
    ((true, 10) ≠ ((true : Bool), (20 : Int))) := by
  constructor
  · rfl
  · decide

/-- C3: the claim is right and the code wrong — Cache::removeLRU on a cache
whose shards are all empty finds no candidate and then dereferences the
null candidate pointer unconditionally.  The crashed execution is modelled
as removeLRU returning none rather than a safe no-op. -/
theorem C3_evict_empty_crash (c : Cache K V)
    (h : ∀ b ∈ c.buckets, b = HashTree.nil) : c.removeLRU = none := by
  apply Cache.removeLRU_eq_none
  show c.buckets.foldl Cache.scanStep none = none
  have key : ∀ bs : List (HashTree K (V × Int)), (∀ b ∈ bs, b = HashTree.nil) →
      bs.foldl Cache.scanStep none = none := by
    intro bs
    induction bs with
    | nil => intro _; rfl
    | cons x xs ih =>
        intro hall
        rw [List.foldl_cons,
          show Cache.scanStep none x = none from by
            rw [hall x (List.mem_cons_self x xs)]; rfl]
        exact ih fun b hb => hall b (List.mem_cons_of_mem _ hb)
  exact key c.buckets h

theorem C3_evict_empty_crash_witness : Cache.removeLRU wCache = none :=
  C3_evict_empty_crash wCache (by decide)

/-- C4: the claim is right and the code wrong — Cache::remove returns true
and decrements the size counter unconditionally, even for an absent key
(for which the bucket trees are provably unchanged), instead of returning
false and leaving the counter alone. -/
theorem C4_remove_unconditional (c : Cache K V) (k : K) :
    (c.remove k).1 = true ∧
    (c.remove k).2.cacheSize = c.cacheSize - 1 ∧
    (c.valsAtKey k = 0 → (c.remove k).2.buckets = c.buckets) := by
  refine ⟨rfl, rfl, fun hz => ?_⟩
  show setAt c.buckets (c.bucketIdx k) (HashTree.remove (c.bucketOf k) k) = c.buckets
  rw [HashTree.remove_eq_of_valsAt_zero (c.bucketOf k) k hz]
  exact setAt_getD_self c.buckets (c.bucketIdx k) HashTree.nil

/-- C5 (amended): remove(k) always reports success, and when k was stored
at most once before the remove, get(k) afterwards returns (false, default)
and keeps doing so across any later operations that do not put k — until k
is put again.  (The original claim also covered a k inserted more than
once before the remove; the counterexample shows the surviving duplicate
keeps get returning found = true.) -/
theorem C5_remove_then_absent [Inhabited V] (c : Cache K V) (k : K)
    (hwf : Cache.WF c) (hcard : Multiset.card (c.valsAtKey k) ≤ 1)
    (ops : List (CacheOp K V)) (hops : ∀ op ∈ ops, op.avoidsPut k = true)
    (cf : Cache K V) (hrun : runOps (c.remove k).2 ops = some cf) :
    (c.remove k).1 = true ∧ cf.get k = (false, default) := by
  have hz : (c.remove k).2.valsAtKey k = 0 := by
    rw [Cache.valsAtKey_remove c hwf k hcard k, if_pos rfl]
  have hkeep := runOps_keeps k 0 (by simp) ops (c.remove k).2
    (Cache.WF_remove c hwf k) hz hops (Or.inl rfl) cf hrun
  exact ⟨rfl, Cache.get_of_valsAtKey_zero cf k hkeep.2⟩

theorem C5_remove_then_absent_witness :
    (Cache.remove wCache1 1).1 = true ∧ Cache.get wCache 1 = (false, default) :=
  C5_remove_then_absent wCache1 1 ⟨by decide, by decide⟩ (by decide) [] (by simp)
    wCache rfl

/-- C5 counterexample: key 1 is inserted twice, then removed once; the
remove reports success, yet get(1) still returns found = true because only
the shallower of the two duplicate nodes was deleted. -/
theorem C5_duplicate_counterexample :
    (match runOps wCache
        [CacheOp.putOp 1 10 1, CacheOp.putOp 1 20 2, CacheOp.removeOp 1] with
     | some cf => (cf.get 1).1
     | none => false) = true := by rfl

/-- C2: starting from a freshly constructed cache with capacity C ≥ 1 and
any positive number of buckets, putting C+1 distinct keys with strictly
increasing timestamps causes exactly one eviction, of the entry with the
minimal timestamp (the first key): afterwards get on the first key returns
not-found while get on each of the other C keys returns found with its
value. -/
theorem C2_capacity_eviction [Inhabited V]
    (cap : Nat) (hcap : 1 ≤ cap) (hf : K → Nat) (nb : Nat) (hnb : 0 < nb)
    (first : List (K × V × Int)) (elast : K × V × Int)
    (hlen : first.length = cap)
    (hkeys : ((first ++ [elast]).map (fun e => e.1)).Nodup)
    (hts : ((first ++ [elast]).map (fun e => e.2.2)).Pairwise (· < ·))
    (e0 : K × V × Int) (rest0 : List (K × V × Int)) (hfirst : first = e0 :: rest0) :
    ∃ cf, runOps (mkEmptyCache cap hf nb : Cache K V) (putsOf (first ++ [elast])) = some cf ∧
      Cache.get cf e0.1 = (false, default) ∧
      ∀ e ∈ rest0 ++ [elast], Cache.get cf e.1 = (true, e.2.1) := by
  have hwf0 : Cache.WF (mkEmptyCache cap hf nb : Cache K V) := WF_mkEmptyCache cap hf nb hnb
  obtain ⟨c1, hrun1, hwf1, hcap1, hsz1, hcont1, hvals1⟩ :=
    runPuts_no_evict first (mkEmptyCache cap hf nb : Cache K V) hwf0 (by
      show (0 : Int) + (first.length : Int) ≤ (cap : Int)
      rw [hlen]
      omega)
  have hsz1' : c1.cacheSize = (cap : Int) := by
    rw [hsz1]
    show (0 : Int) + _ = _
    rw [hlen]
    ring
  have hcap1' : c1.capacity = (cap : Int) := hcap1
  have hcont1' : c1.contents = ↑first := by
    rw [hcont1, contents_mkEmptyCache cap hf nb, add_zero]
  have hvals1' : ∀ k, c1.valsAtKey k = itemsValsAt first k := by
    intro k
    rw [hvals1 k, valsAtKey_mkEmptyCache cap hf nb k, add_zero]
  -- key distinctness facts
  have hkeyscons : e0.1 ∉ ((rest0 ++ [elast]).map (fun e => e.1)) ∧
      ((rest0 ++ [elast]).map (fun e => e.1)).Nodup := by
    have h := hkeys
    rw [hfirst] at h
    simp only [List.cons_append, List.map_cons, List.nodup_cons] at h
    exact h
  have hne_e0 : ∀ e ∈ rest0 ++ [elast], ¬ e.1 = e0.1 := by
    intro e he hek
    exact hkeyscons.1 (by rw [← hek]; exact List.mem_map_of_mem _ he)
  have hne0last : ¬ elast.1 = e0.1 :=
    hne_e0 elast (List.mem_append_right _ (List.mem_cons_self elast []))
  have hlast_notin_rest : ∀ e ∈ rest0, ¬ e.1 = elast.1 := by
    have hnr := hkeyscons.2
    rw [List.map_append, List.nodup_append] at hnr
    intro e he hek
    refine hnr.2.2 (List.mem_map_of_mem _ he) ?_
    rw [hek]
    simp
  have hlast_notin_first : ∀ x ∈ first, ¬ x.1 = elast.1 := by
    intro x hx hxk
    rw [hfirst] at hx
    rcases List.mem_cons.mp hx with rfl | hx
    · exact hne0last (hxk ▸ rfl)
    · exact hlast_notin_rest x hx hxk
  have hfirstnodup : (first.map (fun e => e.1)).Nodup := by
    have h := hkeys
    rw [List.map_append, List.nodup_append] at h
    exact h.1
  -- timestamp facts
  have htslt : ∀ e ∈ rest0 ++ [elast], e0.2.2 < e.2.2 := by
    have h := hts
    rw [hfirst] at h
    simp only [List.cons_append, List.map_cons, List.pairwise_cons] at h
    intro e he
    exact h.1 _ (List.mem_map_of_mem _ he)
  -- the eviction candidate of the full cache is the oldest entry e0
  have hcontne : c1.contents ≠ 0 := by
    rw [hcont1', hfirst]
    simp
  obtain ⟨em, hem⟩ := Cache.evictCandidate_isSome c1 hcontne
  obtain ⟨hmem, hmin⟩ := Cache.evictCandidate_spec c1 em hem
  have hem0 : em = e0 := by
    rw [hcont1'] at hmem hmin
    have hminle : em.2.2 ≤ e0.2.2 := by
      refine hmin e0 ?_
      rw [hfirst]
      exact Multiset.mem_coe.mpr (List.mem_cons_self e0 rest0)
    have hmem' : em ∈ first := Multiset.mem_coe.mp hmem
    rw [hfirst] at hmem'
    rcases List.mem_cons.mp hmem' with h | h
    · exact h
    · exfalso
      have := htslt em (List.mem_append_left _ h)
      omega
  rw [hem0] at hem
  -- the last put triggers eviction of e0 and then inserts elast
  have htrig : c1.cacheSize ≥ c1.capacity := by
    rw [hsz1', hcap1']
  have hwf1b : Cache.WF { c1 with cacheSize := c1.cacheSize + 1 } := ⟨hwf1.1, hwf1.2⟩
  have hRL : Cache.removeLRU { c1 with cacheSize := c1.cacheSize + 1 } =
      some ((Cache.remove { c1 with cacheSize := c1.cacheSize + 1 } e0.1).2) :=
    Cache.removeLRU_eq_some _ e0 hem
  have hstep : stepOp c1 (CacheOp.putOp elast.1 elast.2.1 elast.2.2) =
      some (Cache.insertTS
        ((Cache.remove { c1 with cacheSize := c1.cacheSize + 1 } e0.1).2)
        elast.1 elast.2.1 elast.2.2) := by
    show (c1.put elast.1 elast.2.1 elast.2.2).map Prod.snd = _
    rw [Cache.put_eq, if_pos htrig, hRL]
    rfl
  refine ⟨Cache.insertTS
      ((Cache.remove { c1 with cacheSize := c1.cacheSize + 1 } e0.1).2)
      elast.1 elast.2.1 elast.2.2, ?_, ?_, ?_⟩
  · rw [show putsOf (first ++ [elast]) =
      putsOf first ++ [CacheOp.putOp elast.1 elast.2.1 elast.2.2] from by
        unfold putsOf
        rw [List.map_append]
        rfl,
      runOps_append, hrun1]
    show runOps c1 [CacheOp.putOp elast.1 elast.2.1 elast.2.2] = _
    rw [runOps_cons, hstep]
    rfl
  · -- the evicted key e0 is gone
    have hwf2 : Cache.WF (Cache.remove { c1 with cacheSize := c1.cacheSize + 1 } e0.1).2 :=
      Cache.WF_remove _ hwf1b e0.1
    have hcard : Multiset.card
        (Cache.valsAtKey { c1 with cacheSize := c1.cacheSize + 1 } (e0.1)) ≤ 1 := by
      show Multiset.card (c1.valsAtKey e0.1) ≤ 1
      rw [hvals1' e0.1]
      exact itemsValsAt_card first hfirstnodup e0.1
    apply Cache.get_of_valsAtKey_zero
    rw [Cache.valsAtKey_insertTS _ hwf2.1 elast.1 elast.2.1 elast.2.2 e0.1,
      if_neg hne0last]
    have h := Cache.valsAtKey_remove { c1 with cacheSize := c1.cacheSize + 1 }
      hwf1b e0.1 hcard e0.1
    rw [if_pos rfl] at h
    exact h
  · -- every other key keeps exactly its entry
    intro e he
    have hwf2 : Cache.WF (Cache.remove { c1 with cacheSize := c1.cacheSize + 1 } e0.1).2 :=
      Cache.WF_remove _ hwf1b e0.1
    have hwfcf : Cache.WF (Cache.insertTS
        ((Cache.remove { c1 with cacheSize := c1.cacheSize + 1 } e0.1).2)
        elast.1 elast.2.1 elast.2.2) :=
      Cache.WF_insertTS _ hwf2 elast.1 elast.2.1 elast.2.2
    have hcard : ∀ k, Multiset.card
        (Cache.valsAtKey { c1 with cacheSize := c1.cacheSize + 1 } k) ≤ 1 := by
      intro k
      show Multiset.card (c1.valsAtKey k) ≤ 1
      rw [hvals1' k]
      exact itemsValsAt_card first hfirstnodup k
    have hvals2 : ∀ k, (Cache.remove { c1 with cacheSize := c1.cacheSize + 1 } e0.1).2.valsAtKey k =
        if e0.1 = k then 0 else itemsValsAt first k := by
      intro k
      have h := Cache.valsAtKey_remove { c1 with cacheSize := c1.cacheSize + 1 }
        hwf1b k (hcard k) e0.1
      rw [h]
      by_cases hk : e0.1 = k
      · rw [if_pos hk, if_pos hk]
      · rw [if_neg hk, if_neg hk]
        exact hvals1' k
    rcases List.mem_append.mp he with hrest | hlast
    · -- e is one of the surviving first-phase entries
      have hknotlast : ¬ elast.1 = e.1 := fun hx =>
        hlast_notin_rest e hrest hx.symm
      have hknot0 : ¬ e0.1 = e.1 := fun hx =>
        hne_e0 e (List.mem_append_left _ hrest) hx.symm
      apply Cache.get_of_valsAtKey_singleton _ hwfcf e.1 e.2.1 e.2.2
      rw [Cache.valsAtKey_insertTS _ hwf2.1 elast.1 elast.2.1 elast.2.2 e.1,
        if_neg hknotlast, hvals2 e.1, if_neg hknot0]
      exact itemsValsAt_mem first hfirstnodup e (by rw [hfirst]; exact List.mem_cons_of_mem _ hrest)
    · -- e is the freshly inserted last entry
      have he' : e = elast := by simpa using hlast
      subst he'
      apply Cache.get_of_valsAtKey_singleton _ hwfcf e.1 e.2.1 e.2.2
      rw [Cache.valsAtKey_insertTS _ hwf2.1 e.1 e.2.1 e.2.2 e.1,
        if_pos rfl, hvals2 e.1,
        if_neg (fun hx => hne0last hx.symm),
        itemsValsAt_absent first e.1 hlast_notin_first]
      rfl

theorem C2_capacity_eviction_witness :
    ∃ cf, runOps (mkEmptyCache 4 (fun _ => 0) 1 : Cache Int Int)
        (putsOf (([(1, 11, 1), (2, 12, 2), (3, 13, 3), (4, 14, 4)] :
          List (Int × Int × Int)) ++ [(5, 15, 5)])) = some cf ∧
      Cache.get cf 1 = (false, default) ∧
      ∀ e ∈ (([(2, 12, 2), (3, 13, 3), (4, 14, 4)] : List (Int × Int × Int)) ++
        [(5, 15, 5)]), Cache.get cf e.1 = (true, e.2.1) :=
  C2_capacity_eviction 4 (by decide) (fun _ => 0) 1 (by decide)
    [(1, 11, 1), (2, 12, 2), (3, 13, 3), (4, 14, 4)] (5, 15, 5)
    rfl (by decide) (by decide) (1, 11, 1) [(2, 12, 2), (3, 13, 3), (4, 14, 4)] rfl

/-- C6: insertion routes a key that is ≤ the node key left and a strictly
greater key right, so a duplicate key lands in the left subtree of the
first equal node rather than updating it in place (the entries multiset
just gains the new pair) and the node count grows by exactly one. -/
theorem C6_insert_routing (t : HashTree K V) (k : K) (v : V) :
    HashTree.treeSize (HashTree.insertNode t k v) = HashTree.treeSize t + 1 ∧
    HashTree.entries (HashTree.insertNode t k v) = (k, v) ::ₘ HashTree.entries t ∧
    ∀ (m : K) (w : V) (l r : HashTree K V),
      HashTree.insertNode (HashTree.node m w l r) k v =
        if k ≤ m then HashTree.node m w (HashTree.insertNode l k v) r
        else HashTree.node m w l (HashTree.insertNode r k v) := by
  refine ⟨HashTree.treeSize_insertNode t k v, HashTree.entries_insertNode t k v, ?_⟩
  intro m w l r
  by_cases h : k ≤ m
  · rw [if_pos h]
    show (if m ≥ k then _ else _) = _
    rw [if_pos h]
  · rw [if_neg h]
    show (if m ≥ k then _ else _) = _
    rw [if_neg h]

/-- C7: Cache::put increments the size counter first, invokes removeLRU
exactly when the post-increment counter exceeds the capacity — before the
timestamped insertion — and the success flag of any returned result is
true. -/
theorem C7_put_eviction_order (c : Cache K V) (k : K) (v : V) (ts : Int) :
    c.put k v ts =
      (if c.cacheSize + 1 > c.capacity
       then Cache.removeLRU { c with cacheSize := c.cacheSize + 1 }
       else some { c with cacheSize := c.cacheSize + 1 }).map
        (fun c2 => (true, c2.insertTS k v ts)) := by
  rw [Cache.put_eq]
  have hiff : (c.cacheSize + 1 > c.capacity) ↔ (c.cacheSize ≥ c.capacity) :=
    Int.lt_add_one_iff
  by_cases h : c.cacheSize ≥ c.capacity
  · rw [if_pos h, if_pos (hiff.mpr h)]
  · rw [if_neg h, if_neg (fun hc => h (hiff.mp hc))]

/-- C8: seekWithComparator returns none on the empty tree, and with the
"lower timestamp wins" comparator of removeLRU it returns, for every
non-empty tree, a stored entry whose timestamp is minimal over all entries
of the tree (the fold visits every node). -/
theorem C8_seek_oldest (t : HashTree K (V × Int)) (h : t ≠ HashTree.nil) :
    HashTree.seekWithComparator (HashTree.nil : HashTree K (V × Int))
      HashTree.lruComp = none ∧
    ∃ e, HashTree.seekWithComparator t HashTree.lruComp = some e ∧
      e ∈ HashTree.entries t ∧ ∀ x ∈ HashTree.entries t, e.2.2 ≤ x.2.2 := by
  refine ⟨rfl, ?_⟩
  cases hS : HashTree.seekWithComparator t HashTree.lruComp with
  | none => exact absurd ((HashTree.seek_eq_none_iff t).mp hS) h
  | some e =>
      obtain ⟨hm, hmin⟩ := HashTree.seek_lruComp_min t e hS
      exact ⟨e, rfl, hm, hmin⟩

theorem C8_seek_oldest_witness :
    HashTree.seekWithComparator (HashTree.nil : HashTree Int (Int × Int))
      HashTree.lruComp = none ∧
    ∃ e, HashTree.seekWithComparator tSeek HashTree.lruComp = some e ∧
      e ∈ HashTree.entries tSeek ∧ ∀ x ∈ HashTree.entries tSeek, e.2.2 ≤ x.2.2 :=
  C8_seek_oldest tSeek (by decide)

/-- C9 (amended): the empty tree satisfies the strict invariant and insert
preserves it, but delete only preserves the weakened invariant in which
right-subtree keys are ≥ (not >) the node key — strictness can be lost in
the two-child case when duplicate keys are present (see the
counterexample).  Deleting an absent key returns the root unchanged. -/
theorem C9_invariant_preservation (t : HashTree K V) (hs : HashTree.isSearchTree t = true)
    (k : K) (v : V) (j : K) :
    HashTree.isBSTStrict (HashTree.nil : HashTree K V) = true ∧
    HashTree.isSearchTree (HashTree.insertNode t k v) = true ∧
    HashTree.isSearchTree (HashTree.remove t j) = true ∧
    (HashTree.isBSTStrict t = true →
      HashTree.isBSTStrict (HashTree.insertNode t k v) = true) ∧
    (HashTree.valsAt t j = 0 → HashTree.remove t j = t) :=
  ⟨rfl, HashTree.isSearchTree_insertNode t hs k v, HashTree.isSearchTree_remove t hs j,
    fun hb => HashTree.isBSTStrict_insertNode t hb k v,
    fun hz => HashTree.remove_eq_of_valsAt_zero t j hz⟩

theorem C9_invariant_preservation_witness :
    HashTree.isBSTStrict (HashTree.nil : HashTree Int Int) = true ∧
    HashTree.isSearchTree (HashTree.insertNode tW 2 5) = true ∧
    HashTree.isSearchTree (HashTree.remove tW 3) = true ∧
    HashTree.isBSTStrict (HashTree.insertNode tW 2 5) = true ∧
    HashTree.remove tW 7 = tW := by
  have h1 := C9_invariant_preservation tW (by decide) 2 5 3
  have h2 := C9_invariant_preservation tW (by decide) 2 5 7
  exact ⟨h1.1, h1.2.1, h1.2.2.1, h1.2.2.2.1 (by decide), h2.2.2.2.2 (by decide)⟩

/-- C9 counterexample: a tree satisfying the strict invariant (with a
duplicate key 5, as insertion produces) on which the reference's two-child
delete of key 3 yields a tree violating the strict invariant: the new root
key 5 has a right subtree containing key 5, which is not strictly
greater. -/
theorem C9_strict_invariant_counterexample :
    HashTree.isBSTStrict tDup = true ∧
    HashTree.isBSTStrict (HashTree.remove tDup 3) = false := by decide

/-- C10: when get is called on a key absent from every bucket, it returns
found = false and still overwrites the out-parameter with the
default-constructed value. -/
theorem C10_get_absent_default [Inhabited V] (c : Cache K V) (k : K)
    (h : ∀ b ∈ c.buckets, HashTree.valsAt b k = 0) :
    c.get k = (false, default) := by
  apply Cache.get_of_valsAtKey_zero
  show HashTree.valsAt (c.buckets.getD (c.bucketIdx k) HashTree.nil) k = 0
  rcases getD_mem_or_default c.buckets (c.bucketIdx k) HashTree.nil with hm | hm
  · exact h _ hm
  · rw [hm]; rfl

theorem C10_get_absent_default_witness : Cache.get wCache1 9 = (false, default) :=
  C10_get_absent_default wCache1 9 (by decide)

end Claims

end HashCache
